import Mathlib

/-!
Verification development for the MRP (raw-material requirements) calculator
of `app.py`.  The Python source is shallowly embedded: material codes are
`String`s, quantities are `ℚ` (the source computes with IEEE doubles on exact
decimal inputs; all claims are about the exact arithmetic the code performs),
dictionaries are association lists that keep insertion order, as Python dicts
do, and the unbounded recursions of the source take an explicit fuel argument
returning `Option` (`none` = the recursion did not finish within the fuel).
-/

namespace MRP

/-! ### Python string primitives

Lean's own `String.trim`/`String.toUpper`/`String.startsWith` are defined by
well-founded recursion over byte positions and do not reduce inside the
kernel, so the Python string methods used by the source are embedded as
structural functions over the character list of the string. -/

/-- Whitespace as stripped by Python's `str.strip()` (the ASCII cases). -/
def pyIsSpace (c : Char) : Bool :=
  c = ' ' || c = '\t' || c = '\n' || c = '\r' || c = '\x0b' || c = '\x0c'

/-- Python `str.strip()`. -/
def pyStrip (s : String) : String :=
  ⟨((s.data.dropWhile pyIsSpace).reverse.dropWhile pyIsSpace).reverse⟩

/-- ASCII upper-casing of one character (Python `str.upper` on the inputs the
source deals with). -/
def pyUpperChar (c : Char) : Char :=
  if 'a' ≤ c ∧ c ≤ 'z' then Char.ofNat (c.toNat - 32) else c

/-- Python `str.upper()`. -/
def pyUpper (s : String) : String :=
  ⟨s.data.map pyUpperChar⟩

/-- ASCII lower-casing of one character. -/
def pyLowerChar (c : Char) : Char :=
  if 'A' ≤ c ∧ c ≤ 'Z' then Char.ofNat (c.toNat + 32) else c

/-- Python `str.lower()`. -/
def pyLower (s : String) : String :=
  ⟨s.data.map pyLowerChar⟩

/-- Python `s.startswith(p)`. -/
def pyStartsWith (s p : String) : Bool :=
  p.data.isPrefixOf s.data

/-- Relations: parent code ↦ ordered list of (component, quantity) pairs,
mirroring `self.relations = defaultdict(list)` filled by repeated `append`. -/
abbrev Rel := List (String × List (String × ℚ))

/-- Membership / lookup in the relations dict (`item in self.relations`,
`self.relations[item]`); returns the first entry with the given key. -/
def lookupRel (rel : Rel) (k : String) : Option (List (String × ℚ)) :=
  (rel.find? (fun e => e.1 = k)).map (·.2)

/-- `self.relations[parent].append((comp, qty))` on the association list:
append to the existing entry, or create a new entry at the end. -/
def relAdd (rel : Rel) (p : String) (e : String × ℚ) : Rel :=
  match rel with
  | [] => [(p, [e])]
  | (k, es) :: rest => if k = p then (k, es ++ [e]) :: rest else (k, es) :: relAdd rest p e

/-- `total[material] += v` on a `defaultdict(float)` kept as an ordered
association list: update in place, or append a fresh key at the end. -/
def addTo (m : List (String × ℚ)) (k : String) (v : ℚ) : List (String × ℚ) :=
  match m with
  | [] => [(k, v)]
  | (k', v') :: rest => if k' = k then (k', v' + v) :: rest else (k', v') :: addTo rest k v

/-- Reading a key out of an ordered association map, `0.0` when absent
(the `defaultdict(float)` default). -/
def mapGet (m : List (String × ℚ)) (k : String) : ℚ :=
  match m with
  | [] => 0
  | (k', v) :: rest => if k' = k then v else mapGet rest k

/-- Sum of all values stored under key `k` (coincides with `mapGet` when the
keys are distinct, which the explosion maps maintain). -/
def sumGet (m : List (String × ℚ)) (k : String) : ℚ :=
  ((m.filter (fun e => e.1 = k)).map (·.2)).sum

/-- The inner accumulation loop of `explode_unit`:
`for material, quantity in sub_map.items(): total[material] += quantity * qty`. -/
def accumScaled (total sub : List (String × ℚ)) (qty : ℚ) : List (String × ℚ) :=
  sub.foldl (fun t mq => addTo t mq.1 (mq.2 * qty)) total

/-- `convert_quantity` (lines 163-172): gram-family units are converted to KG
by the fixed factor 0.001; every other unit is passed through with the
trimmed, upper-cased unit string. -/
def convert_quantity (quantity : ℚ) (uom : String) : ℚ × String :=
  let uom_clean := pyUpper (pyStrip uom)
  if uom_clean = "G" ∨ uom_clean = "GR" ∨ uom_clean = "GRAM" ∨ uom_clean = "GRAMS" then
    (quantity * (1 / 1000), "KG")
  else
    (quantity, uom_clean)

/-- The leaf test of `explode_unit` (line 274):
`item.startswith("1") or item not in self.relations or not self.relations[item]`. -/
def isLeaf (rel : Rel) (item : String) : Bool :=
  pyStartsWith item "1" ||
    match lookupRel rel item with
    | none => true
    | some es => es.isEmpty

/-- The edge loop of `explode_unit`
(`for comp, qty in self.relations[item]: sub_map = self.explode_unit(comp); …`),
parametrised by the recursive call at the smaller fuel; `none` bubbles up a
fuel exhaustion from a recursive call. -/
def explodeGo (recur : String → Option (List (String × ℚ))) :
    List (String × ℚ) → List (String × ℚ) → Option (List (String × ℚ))
  | [], total => some total
  | ce :: rest, total =>
    match recur ce.1 with
    | none => none
    | some sub => explodeGo recur rest (accumScaled total sub ce.2)

/-- `explode_unit` (lines 268-283) with explicit fuel: recursively explode a
BOM item to its leaf materials, returning the per-unit quantity map in
insertion order. -/
def explode_unit (rel : Rel) : Nat → String → Option (List (String × ℚ))
  | 0, _ => none
  | fuel + 1, item_code =>
    let item := pyStrip item_code
    if isLeaf rel item then some [(item, 1)]
    else explodeGo (explode_unit rel fuel) ((lookupRel rel item).getD []) []

-- Rational arithmetic is irreducible in the library; the concrete
-- evaluations below need it to unfold.
attribute [local semireducible] Rat.mul Rat.add Rat.sub Rat.inv

/-! ### Claim C3: `convert_quantity`

The gram-family condition of the claim: the unit, after trimming and
upper-casing, is one of G, GR, GRAM, GRAMS. -/

/-- The claim's gram-family membership condition on the raw unit string. -/
def gramFamily (u : String) : Prop :=
  pyUpper (pyStrip u) = "G" ∨ pyUpper (pyStrip u) = "GR" ∨
    pyUpper (pyStrip u) = "GRAM" ∨ pyUpper (pyStrip u) = "GRAMS"

instance (u : String) : Decidable (gramFamily u) := by
  unfold gramFamily
  infer_instance

/-- Claim C3, counterexample: the claimed equivalence "`convert_quantity`
returns `(q * 0.001, KG)` if and only if the unit is gram-family" fails at
`q = 0`, `u = "KG"`: the result `(0, KG)` equals `(0 * 0.001, KG)` although
`KG` is not a gram-family unit. -/
theorem C3_counterexample :
    convert_quantity 0 "KG" = ((0 : ℚ) * (1 / 1000), "KG") ∧ ¬ gramFamily "KG" := by
  decide

/-- Claim C3, amended: gram-family units convert by the factor 0.001 to KG;
any other unit passes the quantity through unchanged with the
trimmed/upper-cased unit; and for every nonzero quantity the claimed
equivalence does hold. -/
theorem C3_convert_quantity_amended (q : ℚ) (u : String) :
    (gramFamily u → convert_quantity q u = (q * (1 / 1000), "KG")) ∧
    (¬ gramFamily u → convert_quantity q u = (q, pyUpper (pyStrip u))) ∧
    (q ≠ 0 → (convert_quantity q u = (q * (1 / 1000), "KG") ↔ gramFamily u)) := by
  refine ⟨fun h => ?_, fun h => ?_, fun hq => ⟨fun h => ?_, fun h => ?_⟩⟩
  · simp only [convert_quantity, gramFamily] at *
    rw [if_pos h]
  · simp only [convert_quantity, gramFamily] at *
    rw [if_neg h]
  · by_contra hg
    simp only [convert_quantity, gramFamily] at h hg
    rw [if_neg hg] at h
    have h1 : q = q * (1 / 1000) := congrArg Prod.fst h
    have : q * (1 - 1 / 1000) = 0 := by linarith [h1]
    have h2 : (1 : ℚ) - 1 / 1000 ≠ 0 := by norm_num
    rcases mul_eq_zero.mp this with h3 | h3
    · exact hq h3
    · exact h2 h3
  · simp only [convert_quantity, gramFamily] at *
    rw [if_pos h]

/-- Witness for the amended C3 at concrete inputs: 500 G becomes 0.5 KG, and
a non-gram unit `" ea "` passes through as `(7, "EA")`. -/
theorem C3_witness :
    convert_quantity 500 "G" = ((500 : ℚ) * (1 / 1000), "KG") ∧
    convert_quantity 7 " ea " = (7, "EA") ∧
    (convert_quantity 500 "G" = ((500 : ℚ) * (1 / 1000), "KG") ↔ gramFamily "G") := by
  refine ⟨(C3_convert_quantity_amended 500 "G").1 (by decide), ?_, ?_⟩
  · have h := (C3_convert_quantity_amended 7 " ea ").2.1 (by decide)
    rw [h]
    decide
  · exact (C3_convert_quantity_amended 500 "G").2.2 (by norm_num)

/-! ### Material classification (`get_material_type`, `is_raw_material`,
lines 506-541 of the second variant) -/

/-- Material classification result; the source returns the Arabic strings
"منتج تام" (finished), "منتج مصنع" (manufactured), "مادة خام" (raw),
"غير معروف" (unknown). -/
inductive MType where
  | finished : MType
  | manufactured : MType
  | raw : MType
  | unknown : MType
deriving DecidableEq

/-- `get_material_type`: classify by the first character of the stripped code
(`material_str[0]`), after the blank/\"nan\" guard. -/
def get_material_type (material_code : String) : MType :=
  let s := pyStrip material_code
  if s = "" ∨ s = "nan" then MType.unknown
  else
    match s.data with
    | [] => MType.unknown
    | c :: _ =>
      if c = '5' then MType.finished
      else if c = '4' then MType.manufactured
      else if c = '1' then MType.raw
      else MType.unknown

/-- `is_raw_material`: the material type is raw. -/
def is_raw_material (material_code : String) : Bool :=
  decide (get_material_type material_code = MType.raw)

/-- The two leaf tests of the source's `explode_unit` variants coincide:
`is_raw_material` on any code equals `startswith("1")` on the stripped code
(the `"nan"` and empty special cases are classified unknown, and neither
starts with `'1'`). -/
lemma is_raw_material_eq_startsWith (s : String) :
    is_raw_material s = pyStartsWith (pyStrip s) "1" := by
  by_cases h0 : pyStrip s = "" ∨ pyStrip s = "nan"
  · simp only [is_raw_material, get_material_type, if_pos h0]
    rcases h0 with h | h <;> rw [h] <;> decide
  · rcases hl : (pyStrip s).data with _ | ⟨c, rest⟩
    · exfalso
      apply h0
      left
      exact String.ext hl
    · have hsw : pyStartsWith (pyStrip s) "1" = (('1' : Char) == c) := by
        simp only [pyStartsWith, hl]
        show List.isPrefixOf ['1'] (c :: rest) = _
        simp [List.isPrefixOf]
      simp only [is_raw_material, get_material_type, if_neg h0, hl]
      rw [hsw]
      by_cases h5 : c = '5'
      · subst h5
        decide
      · rw [if_neg h5]
        by_cases h4 : c = '4'
        · subst h4
          decide
        · rw [if_neg h4]
          by_cases h1 : c = '1'
          · subst h1
            decide
          · rw [if_neg h1]
            have hb : (('1' : Char) == c) = false :=
              beq_eq_false_iff_ne.mpr (fun hh => h1 hh.symm)
            rw [hb]
            decide

/-! ### Key invariant: every key of an explosion result is a leaf -/

/-- `addTo` introduces no key outside the old keys and `k`. -/
lemma addTo_forall_key {Q : String → Prop} :
    ∀ (t : List (String × ℚ)) (k : String) (v : ℚ),
      (∀ x ∈ t, Q x.1) → Q k → ∀ x ∈ addTo t k v, Q x.1 := by
  intro t
  induction t with
  | nil =>
    intro k v _ hk x hx
    simp [addTo] at hx
    rw [hx]
    exact hk
  | cons hd tl ih =>
    intro k v ht hk x hx
    simp only [addTo] at hx
    by_cases h : hd.1 = k
    · rw [if_pos h] at hx
      rcases List.mem_cons.mp hx with h1 | h1
      · rw [h1]
        exact ht hd (by simp)
      · exact ht x (List.mem_cons_of_mem _ h1)
    · rw [if_neg h] at hx
      rcases List.mem_cons.mp hx with h1 | h1
      · rw [h1]
        exact ht hd (by simp)
      · exact ih k v (fun y hy => ht y (List.mem_cons_of_mem _ hy)) hk x h1

/-- `accumScaled` introduces no key outside the old keys and the sub-map's. -/
lemma accumScaled_forall_key {Q : String → Prop} :
    ∀ (s t : List (String × ℚ)) (q : ℚ),
      (∀ x ∈ t, Q x.1) → (∀ x ∈ s, Q x.1) → ∀ x ∈ accumScaled t s q, Q x.1 := by
  intro s
  induction s with
  | nil =>
    intro t q ht _ x hx
    simp only [accumScaled, List.foldl] at hx
    exact ht x hx
  | cons hd tl ih =>
    intro t q ht hs x hx
    have : accumScaled t (hd :: tl) q = accumScaled (addTo t hd.1 (hd.2 * q)) tl q := rfl
    rw [this] at hx
    exact ih _ q
      (addTo_forall_key t hd.1 (hd.2 * q) ht (hs hd (by simp)))
      (fun y hy => hs y (List.mem_cons_of_mem _ hy)) x hx

/-- Keys produced by the explosion edge loop all satisfy `Q` when the
recursive results' and accumulator's keys do. -/
lemma explodeGo_forall_key {Q : String → Prop}
    (recur : String → Option (List (String × ℚ)))
    (hrec : ∀ c sub, recur c = some sub → ∀ x ∈ sub, Q x.1) :
    ∀ (edges total res : List (String × ℚ)),
      (∀ x ∈ total, Q x.1) → explodeGo recur edges total = some res →
      ∀ x ∈ res, Q x.1 := by
  intro edges
  induction edges with
  | nil =>
    intro total res ht h
    simp only [explodeGo, Option.some.injEq] at h
    rw [← h]
    exact ht
  | cons ce rest ih =>
    intro total res ht h
    simp only [explodeGo] at h
    rcases hr : recur ce.1 with _ | sub
    · rw [hr] at h
      exact absurd h (by simp)
    · simp only [hr] at h
      exact ih _ res (accumScaled_forall_key sub total ce.2 ht (hrec ce.1 sub hr)) h

/-- Every key of a successful `explode_unit` result passes the leaf test. -/
lemma explode_unit_keys_isLeaf (rel : Rel) :
    ∀ (fuel : Nat) (code : String) (res : List (String × ℚ)),
      explode_unit rel fuel code = some res → ∀ x ∈ res, isLeaf rel x.1 = true := by
  intro fuel
  induction fuel with
  | zero =>
    intro code res h
    exact absurd h (by simp [explode_unit])
  | succ n ih =>
    intro code res h
    by_cases hl : isLeaf rel (pyStrip code) = true
    · simp only [explode_unit, hl, if_true, Option.some.injEq] at h
      intro x hx
      rw [← h] at hx
      simp at hx
      rw [hx]
      exact hl
    · simp only [explode_unit] at h
      rw [if_neg hl] at h
      exact @explodeGo_forall_key (fun k => isLeaf rel k = true) _
        (fun c sub hs => ih c sub hs) _ [] res (by simp) h

/-! ### Claim C2: leaf policy of `explode_unit` -/

/-- Claim C2: `explode_unit` returns exactly the singleton `(code, 1.0)` on
the stripped code iff the stripped code passes the leaf test, which holds iff
it starts with `'1'`, has no entry in Relations, or has an empty relation
list; the prefix rule takes precedence (it is checked regardless of the
relation data), and the second variant's `is_raw_material` test is the same
test. -/
theorem C2_leaf_policy (rel : Rel) (code : String) :
    (isLeaf rel (pyStrip code) = true →
      ∀ fuel, explode_unit rel (fuel + 1) code = some [(pyStrip code, 1)]) ∧
    (∀ fuel res, explode_unit rel fuel code = some res →
      (res = [(pyStrip code, 1)] ↔ isLeaf rel (pyStrip code) = true)) ∧
    (isLeaf rel (pyStrip code) = true ↔
      (pyStartsWith (pyStrip code) "1" = true ∨ lookupRel rel (pyStrip code) = none ∨
        lookupRel rel (pyStrip code) = some [])) ∧
    is_raw_material code = pyStartsWith (pyStrip code) "1" := by
  refine ⟨fun h fuel => ?_, fun fuel res h => ⟨fun hres => ?_, fun hl => ?_⟩, ?_, ?_⟩
  · simp only [explode_unit, h, if_pos]
  · have := explode_unit_keys_isLeaf rel fuel code res h (pyStrip code, 1) (by rw [hres]; simp)
    exact this
  · cases fuel with
    | zero => exact absurd h (by simp [explode_unit])
    | succ n =>
      simp only [explode_unit, hl, if_true, Option.some.injEq] at h
      rw [← h]
  · unfold isLeaf
    rcases hr : lookupRel rel (pyStrip code) with _ | es
    · simp
    · rcases es with _ | ⟨e, es'⟩
      · simp
      · simp [List.isEmpty]
  · exact is_raw_material_eq_startsWith code

/-- The synthetic 3-level BOM of the claim: A→2×B, B→3×C, A→1×D, built in
edge order as `build_bom_relations` would store it. -/
def exRel : Rel := [("A", [("B", 2), ("D", 1)]), ("B", [("C", 3)])]

/-- Witness for C2 at concrete inputs: `C` is a leaf of the example BOM and
explodes to itself; `A` is not, and its 3-fuel explosion is not a singleton. -/
theorem C2_witness :
    isLeaf exRel (pyStrip "C") = true ∧
    explode_unit exRel 1 "C" = some [(pyStrip "C", 1)] ∧
    explode_unit exRel 3 "A" = some [("C", 6), ("D", 1)] ∧
    ([("C", (6 : ℚ)), ("D", 1)] = [(pyStrip "A", 1)] ↔ isLeaf exRel (pyStrip "A") = true) := by
  refine ⟨by decide, ?_, by decide, ?_⟩
  · exact (C2_leaf_policy exRel "C").1 (by decide) 0
  · exact (C2_leaf_policy exRel "A").2.1 3 [("C", 6), ("D", 1)] (by decide)

/-! ### Claim C1: path-expansion identity and termination of `explode_unit`

`leafPaths` enumerates, with the same recursion structure and fuel as
`explode_unit`, every root-to-leaf path: a path is the list of
(component, edge-quantity) steps taken, paired with the leaf reached.
`IsLeafPath` is the declarative characterisation of those paths. -/

/-- Edge loop of the path enumerator, mirroring `explodeGo`. -/
def leafPathsGo (recur : String → Option (List (List (String × ℚ) × String))) :
    List (String × ℚ) → List (List (String × ℚ) × String) →
      Option (List (List (String × ℚ) × String))
  | [], acc => some acc
  | ce :: rest, acc =>
    match recur ce.1 with
    | none => none
    | some ps => leafPathsGo recur rest (acc ++ ps.map (fun p => ((ce.1, ce.2) :: p.1, p.2)))

/-- All root-to-leaf paths from a code, with the fuel discipline of
`explode_unit`. -/
def leafPaths (rel : Rel) : Nat → String → Option (List (List (String × ℚ) × String))
  | 0, _ => none
  | fuel + 1, code =>
    let item := pyStrip code
    if isLeaf rel item then some [([], item)]
    else leafPathsGo (leafPaths rel fuel) ((lookupRel rel item).getD []) []

/-- Product of the edge quantities along a path. -/
def pathWeight (es : List (String × ℚ)) : ℚ := (es.map Prod.snd).prod

/-- Sum of the weights of the enumerated paths ending at leaf `m`. -/
def weightSum (ps : List (List (String × ℚ) × String)) (m : String) : ℚ :=
  ((ps.filter (fun p => p.2 = m)).map (fun p => pathWeight p.1)).sum

/-- Declarative root-to-leaf paths: stop at a leaf, or follow one stored edge
of the stripped code. -/
inductive IsLeafPath (rel : Rel) : String → List (String × ℚ) → String → Prop where
  | leaf (code : String) (h : isLeaf rel (pyStrip code) = true) :
      IsLeafPath rel code [] (pyStrip code)
  | step (code comp : String) (q : ℚ) (es : List (String × ℚ)) (m : String)
      (hleaf : isLeaf rel (pyStrip code) = false)
      (hedge : (comp, q) ∈ (lookupRel rel (pyStrip code)).getD [])
      (hrest : IsLeafPath rel comp es m) :
      IsLeafPath rel code ((comp, q) :: es) m

/-! Arithmetic of the accumulation maps. -/

lemma mapGet_addTo (t : List (String × ℚ)) (k : String) (v : ℚ) (x : String) :
    mapGet (addTo t k v) x = mapGet t x + (if k = x then v else 0) := by
  induction t with
  | nil =>
    simp only [addTo, mapGet]
    by_cases h : k = x <;> simp [h]
  | cons hd tl ih =>
    obtain ⟨a, b⟩ := hd
    by_cases hak : a = k
    · subst hak
      simp only [addTo, if_pos rfl, mapGet]
      by_cases hax : a = x
      · simp [hax]
      · simp [hax]
    · simp only [addTo, if_neg hak, mapGet]
      by_cases hax : a = x
      · have hkx : ¬ k = x := fun hh => hak (hax.trans hh.symm)
        simp [hax, hkx]
      · simp [hax, ih]

lemma sumGet_cons (a : String) (b : ℚ) (rest : List (String × ℚ)) (x : String) :
    sumGet ((a, b) :: rest) x = (if a = x then b else 0) + sumGet rest x := by
  simp only [sumGet, List.filter]
  by_cases h : a = x
  · simp [h]
  · simp [h]

lemma mapGet_accumScaled (s : List (String × ℚ)) :
    ∀ (t : List (String × ℚ)) (q : ℚ) (x : String),
      mapGet (accumScaled t s q) x = mapGet t x + sumGet s x * q := by
  induction s with
  | nil =>
    intro t q x
    simp [accumScaled, sumGet, List.foldl]
  | cons hd tl ih =>
    intro t q x
    obtain ⟨a, b⟩ := hd
    have h1 : accumScaled t ((a, b) :: tl) q = accumScaled (addTo t a (b * q)) tl q := rfl
    rw [h1, ih, mapGet_addTo, sumGet_cons]
    by_cases h : a = x
    · rw [if_pos h, if_pos h]
      ring
    · rw [if_neg h, if_neg h]
      ring

/-! Keys of explosion results are pairwise distinct. -/

lemma mem_keys_addTo (t : List (String × ℚ)) (k : String) (v : ℚ) (x : String) :
    x ∈ (addTo t k v).map Prod.fst → x ∈ t.map Prod.fst ∨ x = k := by
  induction t with
  | nil =>
    intro h
    simp [addTo] at h
    right
    rw [h]
  | cons hd tl ih =>
    intro h
    simp only [addTo] at h
    by_cases hk : hd.1 = k
    · rw [if_pos hk] at h
      simp only [List.map_cons, List.mem_cons] at h
      rcases h with h | h
      · left
        simp [h]
      · left
        simp [h]
    · rw [if_neg hk] at h
      simp only [List.map_cons, List.mem_cons] at h
      rcases h with h | h
      · left
        simp [h]
      · rcases ih h with h1 | h1
        · left
          simp only [List.map_cons, List.mem_cons]
          right
          exact h1
        · right
          exact h1

lemma nodup_keys_addTo (t : List (String × ℚ)) (k : String) (v : ℚ) :
    (t.map Prod.fst).Nodup → ((addTo t k v).map Prod.fst).Nodup := by
  induction t with
  | nil =>
    intro _
    simp [addTo]
  | cons hd tl ih =>
    intro h
    simp only [List.map_cons, List.nodup_cons] at h
    simp only [addTo]
    by_cases hk : hd.1 = k
    · rw [if_pos hk]
      simp only [List.map_cons, List.nodup_cons]
      exact h
    · rw [if_neg hk]
      simp only [List.map_cons, List.nodup_cons]
      refine ⟨fun hmem => ?_, ih h.2⟩
      rcases mem_keys_addTo tl k v hd.1 hmem with h1 | h1
      · exact h.1 h1
      · exact hk h1

lemma nodup_keys_accumScaled (s : List (String × ℚ)) :
    ∀ (t : List (String × ℚ)) (q : ℚ),
      (t.map Prod.fst).Nodup → ((accumScaled t s q).map Prod.fst).Nodup := by
  induction s with
  | nil =>
    intro t q h
    exact h
  | cons hd tl ih =>
    intro t q h
    have h1 : accumScaled t (hd :: tl) q = accumScaled (addTo t hd.1 (hd.2 * q)) tl q := rfl
    rw [h1]
    exact ih _ q (nodup_keys_addTo t hd.1 (hd.2 * q) h)

lemma nodup_keys_explodeGo (recur : String → Option (List (String × ℚ))) :
    ∀ (edges total res : List (String × ℚ)),
      (total.map Prod.fst).Nodup → explodeGo recur edges total = some res →
      (res.map Prod.fst).Nodup := by
  intro edges
  induction edges with
  | nil =>
    intro total res ht h
    simp only [explodeGo, Option.some.injEq] at h
    rw [← h]
    exact ht
  | cons ce rest ih =>
    intro total res ht h
    simp only [explodeGo] at h
    rcases hr : recur ce.1 with _ | sub
    · rw [hr] at h
      exact absurd h (by simp)
    · simp only [hr] at h
      exact ih _ res (nodup_keys_accumScaled sub total ce.2 ht) h

lemma nodup_keys_explode_unit (rel : Rel) :
    ∀ (fuel : Nat) (code : String) (res : List (String × ℚ)),
      explode_unit rel fuel code = some res → (res.map Prod.fst).Nodup := by
  intro fuel
  induction fuel with
  | zero =>
    intro code res h
    exact absurd h (by simp [explode_unit])
  | succ n ih =>
    intro code res h
    by_cases hl : isLeaf rel (pyStrip code) = true
    · simp only [explode_unit, hl, if_true, Option.some.injEq] at h
      rw [← h]
      simp
    · simp only [explode_unit] at h
      rw [if_neg hl] at h
      exact nodup_keys_explodeGo _ _ [] res (by simp) h

lemma sumGet_eq_zero (m : List (String × ℚ)) (k : String) :
    k ∉ m.map Prod.fst → sumGet m k = 0 := by
  induction m with
  | nil =>
    intro _
    simp [sumGet]
  | cons hd tl ih =>
    intro h
    simp only [List.map_cons, List.mem_cons] at h
    push_neg at h
    obtain ⟨a, b⟩ := hd
    rw [sumGet_cons, if_neg (fun hh => h.1 hh.symm), ih h.2]
    ring

lemma sumGet_eq_mapGet (m : List (String × ℚ)) :
    (m.map Prod.fst).Nodup → ∀ k, sumGet m k = mapGet m k := by
  induction m with
  | nil =>
    intro _ k
    simp [sumGet, mapGet]
  | cons hd tl ih =>
    intro h k
    simp only [List.map_cons, List.nodup_cons] at h
    obtain ⟨a, b⟩ := hd
    rw [sumGet_cons]
    simp only [mapGet]
    by_cases hak : a = k
    · subst hak
      rw [if_pos rfl, if_pos rfl, sumGet_eq_zero tl a h.1]
      ring
    · rw [if_neg hak, if_neg hak, ih h.2]
      ring

lemma pathWeight_cons (c : String) (q : ℚ) (es : List (String × ℚ)) :
    pathWeight ((c, q) :: es) = q * pathWeight es := by
  simp [pathWeight]

lemma weightSum_cons (x : List (String × ℚ) × String)
    (l : List (List (String × ℚ) × String)) (m : String) :
    weightSum (x :: l) m = (if x.2 = m then pathWeight x.1 else 0) + weightSum l m := by
  simp only [weightSum, List.filter]
  by_cases h : x.2 = m
  · simp [h]
  · simp [h]

lemma weightSum_append (l1 l2 : List (List (String × ℚ) × String)) (m : String) :
    weightSum (l1 ++ l2) m = weightSum l1 m + weightSum l2 m := by
  simp [weightSum, List.filter_append]

lemma weightSum_map_cons (ps : List (List (String × ℚ) × String))
    (c : String) (q : ℚ) (m : String) :
    weightSum (ps.map (fun p => ((c, q) :: p.1, p.2))) m = q * weightSum ps m := by
  induction ps with
  | nil =>
    simp [weightSum]
  | cons p rest ih =>
    simp only [List.map_cons]
    rw [weightSum_cons, weightSum_cons, ih, pathWeight_cons]
    by_cases h : p.2 = m
    · rw [if_pos h, if_pos h]
      ring
    · rw [if_neg h, if_neg h]
      ring

/-! Termination of `explode_unit` on acyclic relations, where acyclicity is
given by a depth measure strictly decreasing along every stored edge. -/

lemma lookupRel_mem (rel : Rel) (item : String) (comps : List (String × ℚ)) :
    lookupRel rel item = some comps → ∃ e ∈ rel, e.1 = item ∧ e.2 = comps := by
  intro h
  unfold lookupRel at h
  rcases hf : rel.find? (fun e => e.1 = item) with _ | e
  · rw [hf] at h
    exact absurd h (by simp)
  · rw [hf] at h
    simp only [Option.map_some'] at h
    refine ⟨e, List.mem_of_find?_eq_some hf, ?_, by rw [← Option.some.injEq]; exact h⟩
    have := List.find?_some hf
    exact of_decide_eq_true this

lemma explodeGo_isSome (recur : String → Option (List (String × ℚ))) :
    ∀ (edges total : List (String × ℚ)),
      (∀ ce ∈ edges, (recur ce.1).isSome = true) →
      (explodeGo recur edges total).isSome = true := by
  intro edges
  induction edges with
  | nil =>
    intro total _
    simp [explodeGo]
  | cons ce rest ih =>
    intro total h
    simp only [explodeGo]
    rcases hr : recur ce.1 with _ | sub
    · have := h ce (by simp)
      rw [hr] at this
      simp at this
    · exact ih _ (fun c hc => h c (List.mem_cons_of_mem _ hc))

lemma explode_unit_isSome (rel : Rel) (depth : String → Nat)
    (hd : ∀ e ∈ rel, ∀ cq ∈ e.2, depth (pyStrip cq.1) < depth e.1) :
    ∀ (fuel : Nat) (code : String), depth (pyStrip code) < fuel →
      (explode_unit rel fuel code).isSome = true := by
  intro fuel
  induction fuel with
  | zero =>
    intro code h
    exact absurd h (Nat.not_lt_zero _)
  | succ n ih =>
    intro code h
    by_cases hl : isLeaf rel (pyStrip code) = true
    · simp [explode_unit, hl]
    · simp only [explode_unit]
      rw [if_neg hl]
      apply explodeGo_isSome
      intro ce hce
      rcases hlk : lookupRel rel (pyStrip code) with _ | comps
      · rw [hlk] at hce
        simp at hce
      · rw [hlk] at hce
        simp only [Option.getD_some] at hce
        obtain ⟨e, he, he1, he2⟩ := lookupRel_mem rel (pyStrip code) comps hlk
        apply ih
        have h1 := hd e he ce (by rw [he2]; exact hce)
        rw [he1] at h1
        omega

/-! The path enumerator's membership agrees with the declarative paths. -/

lemma leafPathsGo_isSome_each
    (recur : String → Option (List (List (String × ℚ) × String))) :
    ∀ (edges : List (String × ℚ)) (acc ps : List (List (String × ℚ) × String)),
      leafPathsGo recur edges acc = some ps →
      ∀ ce ∈ edges, (recur ce.1).isSome = true := by
  intro edges
  induction edges with
  | nil =>
    intro acc ps _ ce hce
    simp at hce
  | cons ce0 rest ih =>
    intro acc ps h ce hce
    simp only [leafPathsGo] at h
    rcases hr : recur ce0.1 with _ | psc
    · rw [hr] at h
      exact absurd h (by simp)
    · simp only [hr] at h
      rcases List.mem_cons.mp hce with h1 | h1
      · rw [h1, hr]
        rfl
      · exact ih _ ps h ce h1

lemma leafPathsGo_mem
    (recur : String → Option (List (List (String × ℚ) × String))) :
    ∀ (edges : List (String × ℚ)) (acc ps : List (List (String × ℚ) × String)),
      leafPathsGo recur edges acc = some ps →
      ∀ x, (x ∈ ps ↔ (x ∈ acc ∨ ∃ ce ∈ edges, ∃ psc, recur ce.1 = some psc ∧
        ∃ p ∈ psc, x = ((ce.1, ce.2) :: p.1, p.2))) := by
  intro edges
  induction edges with
  | nil =>
    intro acc ps h x
    simp only [leafPathsGo, Option.some.injEq] at h
    rw [← h]
    simp
  | cons ce0 rest ih =>
    intro acc ps h x
    simp only [leafPathsGo] at h
    rcases hr : recur ce0.1 with _ | psc
    · rw [hr] at h
      exact absurd h (by simp)
    · simp only [hr] at h
      rw [ih _ ps h x]
      constructor
      · intro hx
        rcases hx with hx | ⟨ce, hce, psc', hpsc', p, hp, hxeq⟩
        · rcases List.mem_append.mp hx with hx1 | hx1
          · exact Or.inl hx1
          · obtain ⟨p, hp, hpeq⟩ := List.mem_map.mp hx1
            exact Or.inr ⟨ce0, by simp, psc, hr, p, hp, hpeq.symm⟩
        · exact Or.inr ⟨ce, List.mem_cons_of_mem _ hce, psc', hpsc', p, hp, hxeq⟩
      · intro hx
        rcases hx with hx | ⟨ce, hce, psc', hpsc', p, hp, hxeq⟩
        · exact Or.inl (List.mem_append.mpr (Or.inl hx))
        · rcases List.mem_cons.mp hce with h1 | h1
          · left
            apply List.mem_append.mpr
            right
            apply List.mem_map.mpr
            refine ⟨p, ?_, ?_⟩
            · rw [h1] at hpsc'
              rw [hr] at hpsc'
              rw [Option.some.injEq] at hpsc'
              rw [hpsc']
              exact hp
            · rw [hxeq, h1]
          · exact Or.inr ⟨ce, h1, psc', hpsc', p, hp, hxeq⟩

lemma leafPaths_mem_iff (rel : Rel) :
    ∀ (fuel : Nat) (code : String) (ps : List (List (String × ℚ) × String)),
      leafPaths rel fuel code = some ps →
      ∀ es m, ((es, m) ∈ ps ↔ IsLeafPath rel code es m) := by
  intro fuel
  induction fuel with
  | zero =>
    intro code ps h
    exact absurd h (by simp [leafPaths])
  | succ n ih =>
    intro code ps h es m
    by_cases hl : isLeaf rel (pyStrip code) = true
    · simp only [leafPaths, hl, if_true, Option.some.injEq] at h
      constructor
      · intro hx
        rw [← h] at hx
        simp at hx
        rw [hx.1, hx.2]
        exact IsLeafPath.leaf code hl
      · intro hp
        cases hp with
        | leaf _ h2 =>
          rw [← h]
          simp
        | step _ comp q es' m' hleaf hedge hrest =>
          rw [hl] at hleaf
          exact absurd hleaf (by simp)
    · simp only [leafPaths] at h
      rw [if_neg hl] at h
      have hmem := leafPathsGo_mem _ _ _ _ h (es, m)
      constructor
      · intro hx
        rcases hmem.mp hx with h1 | ⟨ce, hce, psc, hpsc, p, hp, hxeq⟩
        · simp at h1
        · have heq : es = (ce.1, ce.2) :: p.1 ∧ m = p.2 := by
            constructor
            · exact congrArg Prod.fst hxeq
            · exact congrArg Prod.snd hxeq
          rw [heq.1, heq.2]
          refine IsLeafPath.step code ce.1 ce.2 p.1 p.2 ?_ ?_ ?_
          · exact Bool.not_eq_true _ ▸ hl
          · rw [Prod.mk.eta]
            exact hce
          · exact (ih ce.1 psc hpsc p.1 p.2).mp (by rw [Prod.mk.eta]; exact hp)
      · intro hp
        cases hp with
        | leaf _ h2 =>
          rw [h2] at hl
          exact absurd rfl hl
        | step _ comp q es' _ hleaf hedge hrest =>
          apply hmem.mpr
          right
          refine ⟨(comp, q), hedge, ?_⟩
          have hs := leafPathsGo_isSome_each _ _ _ _ h (comp, q) hedge
          obtain ⟨psc, hpsc⟩ := Option.isSome_iff_exists.mp hs
          refine ⟨psc, hpsc, (es', m), ?_, rfl⟩
          exact (ih comp psc hpsc es' m).mpr hrest

/-! The path-expansion identity. -/

lemma explodeGo_weightSum
    (recurE : String → Option (List (String × ℚ)))
    (recurP : String → Option (List (List (String × ℚ) × String)))
    (hrec : ∀ c sub, recurE c = some sub →
      ((sub.map Prod.fst).Nodup ∧
        ∃ psc, recurP c = some psc ∧ ∀ m, mapGet sub m = weightSum psc m)) :
    ∀ (edges : List (String × ℚ)) (total : List (String × ℚ))
      (acc : List (List (String × ℚ) × String)) (res : List (String × ℚ)),
      explodeGo recurE edges total = some res →
      (∀ m, mapGet total m = weightSum acc m) →
      ∃ ps, leafPathsGo recurP edges acc = some ps ∧
        ∀ m, mapGet res m = weightSum ps m := by
  intro edges
  induction edges with
  | nil =>
    intro total acc res h hinv
    simp only [explodeGo, Option.some.injEq] at h
    refine ⟨acc, rfl, fun m => ?_⟩
    rw [← h]
    exact hinv m
  | cons ce rest ih =>
    intro total acc res h hinv
    simp only [explodeGo] at h
    rcases hr : recurE ce.1 with _ | sub
    · rw [hr] at h
      exact absurd h (by simp)
    · simp only [hr] at h
      obtain ⟨hnd, psc, hpsc, hpt⟩ := hrec ce.1 sub hr
      have hinv2 : ∀ m, mapGet (accumScaled total sub ce.2) m
          = weightSum (acc ++ psc.map (fun p => ((ce.1, ce.2) :: p.1, p.2))) m := by
        intro m
        rw [mapGet_accumScaled, weightSum_append, weightSum_map_cons,
            sumGet_eq_mapGet sub hnd, hpt, hinv]
        ring
      obtain ⟨ps, hps, hpe⟩ := ih _ _ res h hinv2
      refine ⟨ps, ?_, hpe⟩
      simp only [leafPathsGo, hpsc]
      exact hps

lemma explode_unit_weightSum (rel : Rel) :
    ∀ (fuel : Nat) (code : String) (res : List (String × ℚ)),
      explode_unit rel fuel code = some res →
      ∃ ps, leafPaths rel fuel code = some ps ∧ ∀ m, mapGet res m = weightSum ps m := by
  intro fuel
  induction fuel with
  | zero =>
    intro code res h
    exact absurd h (by simp [explode_unit])
  | succ n ih =>
    intro code res h
    by_cases hl : isLeaf rel (pyStrip code) = true
    · simp only [explode_unit, hl, if_true, Option.some.injEq] at h
      refine ⟨[([], pyStrip code)], by simp [leafPaths, hl], fun m => ?_⟩
      rw [← h]
      by_cases hm : pyStrip code = m
      · rw [weightSum_cons]
        simp [mapGet, hm, pathWeight, weightSum]
      · rw [weightSum_cons]
        simp [mapGet, hm, weightSum]
    · simp only [explode_unit] at h
      rw [if_neg hl] at h
      obtain ⟨ps, hps, hpt⟩ :=
        explodeGo_weightSum (explode_unit rel n) (leafPaths rel n)
          (fun c sub hs => ⟨nodup_keys_explode_unit rel n c sub hs, ih c sub hs⟩)
          _ [] [] res h (fun m => by simp [mapGet, weightSum])
      refine ⟨ps, ?_, hpt⟩
      simp only [leafPaths]
      rw [if_neg hl]
      exact hps

/-! ### Claim C1 -/

/-- Claim C1: on every Relations map carrying a depth measure that strictly
decreases along stored edges (the measure form of acyclicity of the
parent-component graph), `explode_unit` terminates with fuel `depth + 1`,
and whenever it returns a map, the quantity of each leaf equals the sum,
over all root-to-leaf paths (characterised by `IsLeafPath`), of the products
of the edge quantities; in particular on the synthetic BOM A→2×B, B→3×C,
A→1×D the result is exactly the map C ↦ 6.0, D ↦ 1.0. -/
theorem C1_explode_path_expansion :
    (∀ (rel : Rel) (depth : String → Nat),
      (∀ e ∈ rel, ∀ cq ∈ e.2, depth (pyStrip cq.1) < depth e.1) →
      ∀ code,
        (explode_unit rel (depth (pyStrip code) + 1) code).isSome = true ∧
        ∀ fuel res, explode_unit rel fuel code = some res →
          ∃ ps, leafPaths rel fuel code = some ps ∧
            (∀ es m, ((es, m) ∈ ps ↔ IsLeafPath rel code es m)) ∧
            (∀ m, mapGet res m = weightSum ps m)) ∧
    explode_unit exRel 3 "A" = some [("C", 6), ("D", 1)] ∧
    mapGet [("C", (6 : ℚ)), ("D", 1)] "C" = 6 ∧
    mapGet [("C", (6 : ℚ)), ("D", 1)] "D" = 1 := by
  refine ⟨fun rel depth hd code => ⟨?_, fun fuel res h => ?_⟩, by decide, by decide, by decide⟩
  · exact explode_unit_isSome rel depth hd _ code (Nat.lt_succ_self _)
  · obtain ⟨ps, hps, hpt⟩ := explode_unit_weightSum rel fuel code res h
    exact ⟨ps, hps, fun es m => leafPaths_mem_iff rel fuel code ps hps es m, hpt⟩

/-- A depth measure witnessing acyclicity of the example BOM. -/
def exDepth (s : String) : Nat :=
  if s = "A" then 2 else if s = "B" then 1 else 0

/-- Witness for C1: the example BOM satisfies the depth hypothesis, the
explosion of `A` terminates with fuel 3 and satisfies the path identity. -/
theorem C1_witness :
    (∀ e ∈ exRel, ∀ cq ∈ e.2, exDepth (pyStrip cq.1) < exDepth e.1) ∧
    (explode_unit exRel (exDepth (pyStrip "A") + 1) "A").isSome = true ∧
    ∃ ps, leafPaths exRel 3 "A" = some ps ∧
      (∀ es m, ((es, m) ∈ ps ↔ IsLeafPath exRel "A" es m)) ∧
      (∀ m, mapGet [("C", (6 : ℚ)), ("D", 1)] m = weightSum ps m) := by
  refine ⟨by decide, ?_, ?_⟩
  · exact (C1_explode_path_expansion.1 exRel exDepth (by decide) "A").1
  · exact (C1_explode_path_expansion.1 exRel exDepth (by decide) "A").2 3
      [("C", 6), ("D", 1)] (by decide)

/-! ### BOM rows, quantity parsing, cleaning and relation building

A raw BOM cell is either missing (`NaN`), a number, or a text; `str()` of a
missing cell is the string `"nan"`.  `pyFloat` embeds Python's builtin
`float(str)` on the decimal spellings (optional sign, digits with optional
decimal point, optional exponent); the other accepted spellings
(`inf`, `nan`, underscore separators) play no role in any claim and are not
distinguished. -/

/-- Value of a decimal digit string. -/
def digitsToNat (l : List Char) : Nat :=
  l.foldl (fun n c => n * 10 + (c.toNat - 48)) 0

/-- Split a character list at the first `e`/`E` (exponent marker). -/
def splitExpChar : List Char → List Char × Option (List Char)
  | [] => ([], none)
  | c :: rest =>
    if c = 'e' ∨ c = 'E' then ([], some rest)
    else
      let p := splitExpChar rest
      (c :: p.1, p.2)

/-- Unsigned decimal mantissa: `digits`, `digits.`, `.digits` or
`digits.digits`. -/
def parseUnsignedDec (cs : List Char) : Option ℚ :=
  let intPart := cs.takeWhile (fun c => c.isDigit)
  let rest := cs.dropWhile (fun c => c.isDigit)
  match rest with
  | [] => if intPart.isEmpty then none else some (digitsToNat intPart)
  | '.' :: frac =>
    if frac.all (fun c => c.isDigit) ∧ (intPart ≠ [] ∨ frac ≠ []) then
      some ((digitsToNat intPart : ℚ) + (digitsToNat frac : ℚ) / (10 : ℚ) ^ frac.length)
    else none
  | _ => none

/-- Signed decimal mantissa. -/
def parseSignedDec : List Char → Option ℚ
  | '+' :: rest => parseUnsignedDec rest
  | '-' :: rest => (parseUnsignedDec rest).map Neg.neg
  | cs => parseUnsignedDec cs

/-- Signed decimal exponent. -/
def parseExp : List Char → Option Int
  | '+' :: rest => if rest ≠ [] ∧ rest.all (fun c => c.isDigit) then some (digitsToNat rest) else none
  | '-' :: rest =>
    if rest ≠ [] ∧ rest.all (fun c => c.isDigit) then some (-(digitsToNat rest : Int)) else none
  | cs => if cs ≠ [] ∧ cs.all (fun c => c.isDigit) then some (digitsToNat cs) else none

/-- Python `float(s)` on a string, `none` on a `ValueError`. -/
def pyFloat (s : String) : Option ℚ :=
  let cs := (pyStrip s).data
  match splitExpChar cs with
  | (mant, none) => parseSignedDec mant
  | (mant, some ex) =>
    match parseSignedDec mant, parseExp ex with
    | some m, some e => some (m * (10 : ℚ) ^ e)
    | _, _ => none

/-- `s.replace(",", ".")`. -/
def commaToDot (s : String) : String :=
  ⟨s.data.map (fun c => if c = ',' then '.' else c)⟩

/-- A quantity cell of the BOM sheet: missing, numeric, or text. -/
inductive QCell where
  | qnan : QCell
  | qnum : ℚ → QCell
  | qstr : String → QCell
deriving DecidableEq

/-- The quantity handling of `build_bom_relations` (lines 223-238):
`pd.isna` skips the cell; otherwise `float(str(qty_val).replace(",", "."))`,
which round-trips a numeric cell and parses a text cell with `','` accepted
for `'.'`; a `ValueError` yields `none`. -/
def parseQtyCell : QCell → Option ℚ
  | QCell.qnan => none
  | QCell.qnum q => some q
  | QCell.qstr s => pyFloat (commaToDot s)

/-- A raw BOM row; `none` in a string field is a missing (`NaN`) cell. -/
structure BomRow where
  parent : Option String
  comp : Option String
  qty : QCell
  desc : Option String
  uom : Option String
deriving DecidableEq

/-- `str()` of a possibly missing cell (`str(nan) = "nan"`). -/
def cellStr : Option String → String
  | none => "nan"
  | some s => s

/-- Unit conversion of a parsed quantity: with a unit cell, convert; without
one, keep the quantity (`converted_qty = qty`). -/
def convertedQty (row : BomRow) (qty : ℚ) : ℚ :=
  match row.uom with
  | some u => (convert_quantity qty (pyStrip u)).1
  | none => qty

/-- One iteration of the relation-building loop of `build_bom_relations`
(lines 214-241): skip blank or `nan` codes, parse and unit-convert the
quantity, and admit the edge only when the converted quantity is strictly
positive. -/
def rowEdge (row : BomRow) : Option (String × String × ℚ) :=
  let parent := pyStrip (cellStr row.parent)
  let comp := pyStrip (cellStr row.comp)
  if parent = "" ∨ comp = "" ∨ pyLower parent = "nan" ∨ pyLower comp = "nan" then none
  else
    match parseQtyCell row.qty with
    | none => none
    | some qty =>
      if 0 < convertedQty row qty then some (parent, comp, convertedQty row qty) else none

/-- The relation-building loop over the (cleaned) BOM rows. -/
def build_relations_loop (rows : List BomRow) : Rel :=
  rows.foldl
    (fun rel row =>
      match rowEdge row with
      | some e => relAdd rel e.1 (e.2.1, e.2.2)
      | none => rel)
    []

/-! The cleaning pipeline `clean_bom_data` (lines 134-161). -/

/-- `pd.isna` on a quantity cell. -/
def isNaQ : QCell → Bool
  | QCell.qnan => true
  | _ => false

/-- A row that is `NaN` in every observed column (`dropna(how='all')`). -/
def rowAllNa (r : BomRow) : Bool :=
  r.parent.isNone && r.comp.isNone && isNaQ r.qty && r.desc.isNone && r.uom.isNone

/-- A row missing one of the essential Parent/Component/Quantity cells
(`dropna(subset=essential_cols)`). -/
def rowMissingEssential (r : BomRow) : Bool :=
  r.parent.isNone || r.comp.isNone || isNaQ r.qty

/-- The key of step 3, `drop_duplicates(subset=[parent, component, qty, uom])`. -/
def fullKey (r : BomRow) : Option String × Option String × QCell × Option String :=
  (r.parent, r.comp, r.qty, r.uom)

/-- The key of step 4, `drop_duplicates(subset=[parent, component])`. -/
def pairKey (r : BomRow) : Option String × Option String :=
  (r.parent, r.comp)

/-- `drop_duplicates(keep='first')`: keep a row iff its key was not seen in
an earlier row; preserves the order of the kept rows. -/
def dedupKeepFirstAux {α κ : Type} [DecidableEq κ] (key : α → κ) (seen : List κ) :
    List α → List α
  | [] => []
  | r :: rs =>
    if key r ∈ seen then dedupKeepFirstAux key seen rs
    else r :: dedupKeepFirstAux key (key r :: seen) rs

/-- `drop_duplicates(keep='first')` from an empty seen-set. -/
def dedupKeepFirst {α κ : Type} [DecidableEq κ] (key : α → κ) (l : List α) : List α :=
  dedupKeepFirstAux key [] l

/-- `drop_duplicates(keep='last')`: keep a row iff no later row has the same
key; preserves the order of the kept rows. -/
def dedupKeepLast {α κ : Type} [DecidableEq κ] (key : α → κ) : List α → List α
  | [] => []
  | r :: rs =>
    if rs.any (fun x => decide (key x = key r)) then dedupKeepLast key rs
    else r :: dedupKeepLast key rs

/-- `clean_bom_data`: drop all-`NaN` rows, drop rows missing essentials,
drop exact duplicates keeping the first, collapse (Parent, Component)
duplicates keeping the last. -/
def clean_bom_data (rows : List BomRow) : List BomRow :=
  dedupKeepLast pairKey (dedupKeepFirst fullKey
    ((rows.filter (fun r => !rowAllNa r)).filter (fun r => !rowMissingEssential r)))

/-- `build_bom_relations`: clean, then build the relation table
(the metadata bookkeeping of the source does not touch `self.relations`). -/
def build_bom_relations (rows : List BomRow) : Rel :=
  build_relations_loop (clean_bom_data rows)

/-! ### Lemmas on the relation store -/

/-- All stored edge quantities of a relations map are positive. -/
def PosRel (rel : Rel) : Prop :=
  ∀ e ∈ rel, ∀ cq ∈ e.2, 0 < cq.2

instance (rel : Rel) : Decidable (PosRel rel) := by
  unfold PosRel
  infer_instance

lemma rowEdge_pos (row : BomRow) (e : String × String × ℚ) :
    rowEdge row = some e → 0 < e.2.2 := by
  intro h
  simp only [rowEdge] at h
  split at h
  · exact absurd h (by simp)
  · rcases hq : parseQtyCell row.qty with _ | q
    · rw [hq] at h
      exact absurd h (by simp)
    · simp only [hq] at h
      split at h
      · rename_i hpos
        have := Option.some.inj h
        rw [← this]
        exact hpos
      · exact absurd h (by simp)

lemma posRel_relAdd (rel : Rel) (p : String) (e : String × ℚ)
    (h : PosRel rel) (he : 0 < e.2) : PosRel (relAdd rel p e) := by
  induction rel with
  | nil =>
    intro x hx cq hcq
    simp [relAdd] at hx
    rw [hx] at hcq
    simp at hcq
    rw [hcq]
    exact he
  | cons hd tl ih =>
    intro x hx cq hcq
    simp only [relAdd] at hx
    by_cases hk : hd.1 = p
    · rw [if_pos hk] at hx
      rcases List.mem_cons.mp hx with h1 | h1
      · rw [h1] at hcq
        simp only at hcq
        rcases List.mem_append.mp hcq with h2 | h2
        · exact h hd (by simp) cq h2
        · simp at h2
          rw [h2]
          exact he
      · exact h x (List.mem_cons_of_mem _ h1) cq hcq
    · rw [if_neg hk] at hx
      rcases List.mem_cons.mp hx with h1 | h1
      · exact h x (h1 ▸ List.mem_cons_self _ _) cq hcq
      · exact ih (fun y hy => h y (List.mem_cons_of_mem _ hy)) x h1 cq hcq

lemma posRel_build_loop_aux :
    ∀ (rows : List BomRow) (rel : Rel), PosRel rel →
      PosRel (rows.foldl
        (fun rel row =>
          match rowEdge row with
          | some e => relAdd rel e.1 (e.2.1, e.2.2)
          | none => rel) rel) := by
  intro rows
  induction rows with
  | nil =>
    intro rel h
    exact h
  | cons r rest ih =>
    intro rel h
    simp only [List.foldl_cons]
    rcases hr : rowEdge r with _ | e
    · exact ih rel h
    · exact ih _ (posRel_relAdd rel e.1 (e.2.1, e.2.2) h (rowEdge_pos r e hr))

lemma posRel_build_loop (rows : List BomRow) : PosRel (build_relations_loop rows) :=
  posRel_build_loop_aux rows [] (by intro e he; simp at he)

lemma posRel_lookup (rel : Rel) (h : PosRel rel) (p : String) (comps : List (String × ℚ)) :
    lookupRel rel p = some comps → ∀ cq ∈ comps, 0 < cq.2 := by
  intro hlk cq hcq
  obtain ⟨e, he, _, he2⟩ := lookupRel_mem rel p comps hlk
  exact h e he cq (by rw [he2]; exact hcq)

/-! Stored edges persist through later `relAdd`s, and a stored row's edge is
in the final map. -/

lemma lookupRel_relAdd_same (rel : Rel) (p : String) (e : String × ℚ) :
    lookupRel (relAdd rel p e) p = some ((lookupRel rel p).getD [] ++ [e]) := by
  induction rel with
  | nil =>
    simp [relAdd, lookupRel, List.find?]
  | cons hd tl ih =>
    obtain ⟨k, es⟩ := hd
    simp only [relAdd]
    by_cases hk : k = p
    · rw [if_pos hk]
      simp [lookupRel, List.find?, hk]
    · rw [if_neg hk]
      simp only [lookupRel, List.find?]
      have : (decide (k = p)) = false := by simp [hk]
      rw [this]
      exact ih

lemma lookupRel_relAdd_other (rel : Rel) (p : String) (e : String × ℚ) (p' : String)
    (h : p' ≠ p) : lookupRel (relAdd rel p e) p' = lookupRel rel p' := by
  induction rel with
  | nil =>
    simp only [relAdd, lookupRel, List.find?]
    have : (decide (p = p')) = false := by
      simp only [decide_eq_false_iff_not]
      exact fun hh => h hh.symm
    rw [this]
  | cons hd tl ih =>
    obtain ⟨k, es⟩ := hd
    simp only [relAdd]
    by_cases hk : k = p
    · rw [if_pos hk]
      simp only [lookupRel, List.find?]
      have : (decide (k = p')) = false := by
        simp only [decide_eq_false_iff_not]
        intro hh
        exact h (hh ▸ hk ▸ rfl)
      rw [this]
    · rw [if_neg hk]
      simp only [lookupRel, List.find?]
      by_cases hk' : k = p'
      · rw [hk']
        simp
      · have h2 : (decide (k = p')) = false := by simp [hk']
        rw [h2]
        exact ih

lemma mem_lookup_relAdd (rel : Rel) (p : String) (e : String × ℚ)
    (p' : String) (cq : String × ℚ) (h : cq ∈ (lookupRel rel p').getD []) :
    cq ∈ (lookupRel (relAdd rel p e) p').getD [] := by
  by_cases hp : p' = p
  · subst hp
    rw [lookupRel_relAdd_same]
    simp only [Option.getD_some]
    exact List.mem_append.mpr (Or.inl h)
  · rw [lookupRel_relAdd_other rel p e p' hp]
    exact h

lemma mem_lookup_build_fold (p : String) (cq : String × ℚ) :
    ∀ (rows : List BomRow) (rel : Rel), cq ∈ (lookupRel rel p).getD [] →
      cq ∈ (lookupRel (rows.foldl
        (fun rel row =>
          match rowEdge row with
          | some e => relAdd rel e.1 (e.2.1, e.2.2)
          | none => rel) rel) p).getD [] := by
  intro rows
  induction rows with
  | nil =>
    intro rel h
    exact h
  | cons r rest ih =>
    intro rel h
    simp only [List.foldl_cons]
    rcases hr : rowEdge r with _ | e
    · exact ih rel h
    · exact ih _ (mem_lookup_relAdd rel e.1 (e.2.1, e.2.2) p cq h)

lemma build_loop_stores_aux :
    ∀ (rows : List BomRow) (rel : Rel) (row : BomRow), row ∈ rows →
      ∀ e, rowEdge row = some e →
        (e.2.1, e.2.2) ∈ (lookupRel (rows.foldl
          (fun rel row =>
            match rowEdge row with
            | some e => relAdd rel e.1 (e.2.1, e.2.2)
            | none => rel) rel) e.1).getD [] := by
  intro rows
  induction rows with
  | nil =>
    intro rel row hrow
    simp at hrow
  | cons r rest ih =>
    intro rel row hrow e he
    simp only [List.foldl_cons]
    rcases List.mem_cons.mp hrow with h1 | h1
    · rw [← h1, he]
      apply mem_lookup_build_fold
      rw [lookupRel_relAdd_same]
      simp
    · rcases hr : rowEdge r with _ | e'
      · exact ih rel row h1 e he
      · exact ih _ row h1 e he

lemma build_loop_stores (rows : List BomRow) (row : BomRow) (hrow : row ∈ rows)
    (e : String × String × ℚ) (he : rowEdge row = some e) :
    (e.2.1, e.2.2) ∈ (lookupRel (build_relations_loop rows) e.1).getD [] :=
  build_loop_stores_aux rows [] row hrow e he

/-! ### Claim C6: edge admission into Relations -/

/-- The claim's admission conditions on one raw BOM row. -/
def rowAdmissible (row : BomRow) : Prop :=
  pyStrip (cellStr row.parent) ≠ "" ∧ pyStrip (cellStr row.comp) ≠ "" ∧
  pyLower (pyStrip (cellStr row.parent)) ≠ "nan" ∧
  pyLower (pyStrip (cellStr row.comp)) ≠ "nan" ∧
  ∃ q, parseQtyCell row.qty = some q ∧ 0 < convertedQty row q

lemma rowEdge_isSome_iff (row : BomRow) :
    (rowEdge row).isSome = true ↔ rowAdmissible row := by
  unfold rowAdmissible
  constructor
  · intro h
    obtain ⟨e, he⟩ := Option.isSome_iff_exists.mp h
    simp only [rowEdge] at he
    split at he
    · exact absurd he (by simp)
    · rename_i hguard
      push_neg at hguard
      rcases hq : parseQtyCell row.qty with _ | q
      · rw [hq] at he
        exact absurd he (by simp)
      · simp only [hq] at he
        split at he
        · rename_i hpos
          exact ⟨hguard.1, hguard.2.1, hguard.2.2.1, hguard.2.2.2, q, rfl, hpos⟩
        · exact absurd he (by simp)
  · intro ⟨h1, h2, h3, h4, q, hq, hpos⟩
    simp only [rowEdge]
    rw [if_neg (by push_neg; exact ⟨h1, h2, h3, h4⟩), hq]
    simp only [if_pos hpos]
    rfl

/-- Claim C6: a BOM row contributes an edge iff its parent and component
codes are non-blank and not `nan` after stripping, its quantity cell parses
(with `','` read as `'.'`), and the unit-converted quantity is strictly
positive; a row with an unparsable quantity is skipped while the other rows'
edges are unaffected; an admitted row's edge is stored; and no stored edge
has a non-positive quantity. -/
theorem C6_edge_admission :
    (∀ (rows : List BomRow) (p : String) (comps : List (String × ℚ)),
      lookupRel (build_relations_loop rows) p = some comps → ∀ cq ∈ comps, 0 < cq.2) ∧
    (∀ (pre post : List BomRow) (bad : BomRow), rowEdge bad = none →
      build_relations_loop (pre ++ bad :: post) = build_relations_loop (pre ++ post)) ∧
    (∀ (rows : List BomRow) (row : BomRow), row ∈ rows →
      ∀ e, rowEdge row = some e →
        (e.2.1, e.2.2) ∈ (lookupRel (build_relations_loop rows) e.1).getD []) ∧
    (∀ row : BomRow, (rowEdge row).isSome = true ↔ rowAdmissible row) ∧
    parseQtyCell (QCell.qstr "2,5") = some (5 / 2) ∧
    parseQtyCell (QCell.qstr "2.5") = some (5 / 2) ∧
    parseQtyCell (QCell.qstr "abc") = none := by
  refine ⟨?_, ?_, build_loop_stores, rowEdge_isSome_iff, by decide, by decide, by decide⟩
  · intro rows p comps hlk
    exact posRel_lookup _ (posRel_build_loop rows) p comps hlk
  · intro pre post bad hbad
    unfold build_relations_loop
    rw [List.foldl_append, List.foldl_append, List.foldl_cons, hbad]

/-- Witness for C6: a parent with three rows, the middle one carrying the
unparsable quantity `"abc"`; the bad row is skipped and both good edges of
the same parent are stored with positive quantities. -/
theorem C6_witness :
    build_relations_loop
        [⟨some "2P", some "2B", QCell.qnum 2, none, some "EA"⟩,
         ⟨some "2P", some "2C", QCell.qstr "abc", none, some "EA"⟩,
         ⟨some "2P", some "2D", QCell.qnum 3, none, some "EA"⟩] =
      build_relations_loop
        [⟨some "2P", some "2B", QCell.qnum 2, none, some "EA"⟩,
         ⟨some "2P", some "2D", QCell.qnum 3, none, some "EA"⟩] ∧
    rowAdmissible ⟨some "2P", some "2B", QCell.qnum 2, none, some "EA"⟩ ∧
    (0 : ℚ) < 2 ∧
    ("2B", (2 : ℚ)) ∈ (lookupRel (build_relations_loop
        [⟨some "2P", some "2B", QCell.qnum 2, none, some "EA"⟩,
         ⟨some "2P", some "2D", QCell.qnum 3, none, some "EA"⟩]) "2P").getD [] := by
  refine ⟨?_, ?_, ?_, ?_⟩
  · exact C6_edge_admission.2.1 [⟨some "2P", some "2B", QCell.qnum 2, none, some "EA"⟩]
      [⟨some "2P", some "2D", QCell.qnum 3, none, some "EA"⟩]
      ⟨some "2P", some "2C", QCell.qstr "abc", none, some "EA"⟩ (by decide)
  · exact (C6_edge_admission.2.2.2.1 ⟨some "2P", some "2B", QCell.qnum 2, none, some "EA"⟩).mp
      (by decide)
  · exact C6_edge_admission.1
      [⟨some "2P", some "2B", QCell.qnum 2, none, some "EA"⟩,
       ⟨some "2P", some "2D", QCell.qnum 3, none, some "EA"⟩]
      "2P" [("2B", 2), ("2D", 3)] (by decide) ("2B", 2) (by decide)
  · exact C6_edge_admission.2.2.1
      [⟨some "2P", some "2B", QCell.qnum 2, none, some "EA"⟩,
       ⟨some "2P", some "2D", QCell.qnum 3, none, some "EA"⟩]
      ⟨some "2P", some "2B", QCell.qnum 2, none, some "EA"⟩ (by decide)
      ("2P", "2B", 2) (by decide)

/-! ### Claim C10: explosion preserves strict positivity -/

lemma addTo_forall_pos :
    ∀ (t : List (String × ℚ)) (k : String) (v : ℚ),
      (∀ x ∈ t, 0 < x.2) → 0 < v → ∀ x ∈ addTo t k v, 0 < x.2 := by
  intro t
  induction t with
  | nil =>
    intro k v _ hv x hx
    simp [addTo] at hx
    rw [hx]
    exact hv
  | cons hd tl ih =>
    intro k v ht hv x hx
    simp only [addTo] at hx
    by_cases hk : hd.1 = k
    · rw [if_pos hk] at hx
      rcases List.mem_cons.mp hx with h1 | h1
      · rw [h1]
        exact add_pos (ht hd (by simp)) hv
      · exact ht x (List.mem_cons_of_mem _ h1)
    · rw [if_neg hk] at hx
      rcases List.mem_cons.mp hx with h1 | h1
      · rw [h1]
        exact ht hd (by simp)
      · exact ih k v (fun y hy => ht y (List.mem_cons_of_mem _ hy)) hv x h1

lemma accumScaled_forall_pos :
    ∀ (s t : List (String × ℚ)) (q : ℚ),
      (∀ x ∈ t, 0 < x.2) → (∀ x ∈ s, 0 < x.2) → 0 < q →
      ∀ x ∈ accumScaled t s q, 0 < x.2 := by
  intro s
  induction s with
  | nil =>
    intro t q ht _ _ x hx
    exact ht x hx
  | cons hd tl ih =>
    intro t q ht hs hq x hx
    have h1 : accumScaled t (hd :: tl) q = accumScaled (addTo t hd.1 (hd.2 * q)) tl q := rfl
    rw [h1] at hx
    exact ih _ q
      (addTo_forall_pos t hd.1 (hd.2 * q) ht (mul_pos (hs hd (by simp)) hq))
      (fun y hy => hs y (List.mem_cons_of_mem _ hy)) hq x hx

lemma explodeGo_forall_pos (recur : String → Option (List (String × ℚ)))
    (hrec : ∀ c sub, recur c = some sub → ∀ x ∈ sub, 0 < x.2) :
    ∀ (edges total res : List (String × ℚ)),
      (∀ ce ∈ edges, 0 < ce.2) → (∀ x ∈ total, 0 < x.2) →
      explodeGo recur edges total = some res → ∀ x ∈ res, 0 < x.2 := by
  intro edges
  induction edges with
  | nil =>
    intro total res _ ht h
    simp only [explodeGo, Option.some.injEq] at h
    rw [← h]
    exact ht
  | cons ce rest ih =>
    intro total res he ht h
    simp only [explodeGo] at h
    rcases hr : recur ce.1 with _ | sub
    · rw [hr] at h
      exact absurd h (by simp)
    · simp only [hr] at h
      exact ih _ res (fun c hc => he c (List.mem_cons_of_mem _ hc))
        (accumScaled_forall_pos sub total ce.2 ht (hrec ce.1 sub hr) (he ce (by simp))) h

lemma explode_unit_forall_pos (rel : Rel) (hrel : PosRel rel) :
    ∀ (fuel : Nat) (code : String) (res : List (String × ℚ)),
      explode_unit rel fuel code = some res → ∀ x ∈ res, 0 < x.2 := by
  intro fuel
  induction fuel with
  | zero =>
    intro code res h
    exact absurd h (by simp [explode_unit])
  | succ n ih =>
    intro code res h
    by_cases hl : isLeaf rel (pyStrip code) = true
    · simp only [explode_unit, hl, if_true, Option.some.injEq] at h
      intro x hx
      rw [← h] at hx
      simp at hx
      rw [hx]
      norm_num
    · simp only [explode_unit] at h
      rw [if_neg hl] at h
      refine explodeGo_forall_pos _ (fun c sub hs => ih c sub hs) _ [] res ?_ (by simp) h
      intro ce hce
      rcases hlk : lookupRel rel (pyStrip code) with _ | comps
      · rw [hlk] at hce
        simp at hce
      · rw [hlk] at hce
        simp only [Option.getD_some] at hce
        exact posRel_lookup rel hrel _ comps hlk ce hce

/-- The BOM rows of the example A→2×B, B→3×C, A→1×D. -/
def exRows : List BomRow :=
  [⟨some "A", some "B", QCell.qnum 2, none, some "EA"⟩,
   ⟨some "B", some "C", QCell.qnum 3, none, some "EA"⟩,
   ⟨some "A", some "D", QCell.qnum 1, none, some "EA"⟩]

/-- Claim C10: on a Relations map whose stored quantities are all strictly
positive — as every map produced by `build_bom_relations` is, by the
`converted_qty > 0` admission guard — every quantity in any successful
`explode_unit` result is strictly positive. -/
theorem C10_explosion_positivity :
    (∀ rel : Rel, PosRel rel →
      ∀ (fuel : Nat) (code : String) (res : List (String × ℚ)),
        explode_unit rel fuel code = some res → ∀ x ∈ res, 0 < x.2) ∧
    (∀ (rows : List BomRow) (fuel : Nat) (code : String) (res : List (String × ℚ)),
      explode_unit (build_bom_relations rows) fuel code = some res → ∀ x ∈ res, 0 < x.2) := by
  refine ⟨fun rel hrel => explode_unit_forall_pos rel hrel, ?_⟩
  intro rows fuel code res h
  exact explode_unit_forall_pos (build_bom_relations rows)
    (posRel_build_loop (clean_bom_data rows)) fuel code res h

/-- Witness for C10 on the example BOM: the explosion of `A` yields only
strictly positive quantities. -/
theorem C10_witness : ∀ x ∈ [("C", (6 : ℚ)), ("D", 1)], 0 < x.2 :=
  C10_explosion_positivity.1 exRel (by decide) 3 "A" [("C", 6), ("D", 1)] (by decide)

/-! ### Deduplication lemmas (claims C7 and C8) -/

section Dedup

variable {α κ : Type} [DecidableEq κ] (key : α → κ)

lemma dedupKeepFirstAux_filter :
    ∀ (l : List α) (seen : List κ) (k : κ),
      (dedupKeepFirstAux key seen l).filter (fun r => decide (key r = k)) =
        if k ∈ seen then [] else (l.filter (fun r => decide (key r = k))).take 1 := by
  intro l
  induction l with
  | nil =>
    intro seen k
    by_cases h : k ∈ seen
    · simp [dedupKeepFirstAux, h]
    · simp [dedupKeepFirstAux, h]
  | cons r rs ih =>
    intro seen k
    simp only [dedupKeepFirstAux]
    by_cases hk : key r ∈ seen
    · rw [if_pos hk, ih]
      by_cases hks : k ∈ seen
      · rw [if_pos hks, if_pos hks]
      · rw [if_neg hks, if_neg hks,
            List.filter_cons_of_neg (by simp only [decide_eq_true_eq]; exact fun hh => hks (hh ▸ hk))]
    · rw [if_neg hk]
      by_cases hrk : key r = k
      · rw [List.filter_cons_of_pos (by simp [hrk]), ih,
            if_pos (by rw [← hrk]; exact List.mem_cons_self _ _)]
        have hks : ¬ k ∈ seen := by
          rw [← hrk]
          exact hk
        rw [if_neg hks, List.filter_cons_of_pos (by simp [hrk])]
        simp
      · rw [List.filter_cons_of_neg (by simp [hrk]), ih]
        by_cases hks : k ∈ seen
        · rw [if_pos (List.mem_cons_of_mem _ hks), if_pos hks]
        · have hnm : ¬ k ∈ key r :: seen := by
            simp only [List.mem_cons]
            push_neg
            exact ⟨fun hh => hrk hh.symm, hks⟩
          rw [if_neg hnm, if_neg hks, List.filter_cons_of_neg (by simp [hrk])]

lemma dedupKeepFirst_filter (l : List α) (k : κ) :
    (dedupKeepFirst key l).filter (fun r => decide (key r = k)) =
      (l.filter (fun r => decide (key r = k))).take 1 := by
  unfold dedupKeepFirst
  rw [dedupKeepFirstAux_filter]
  simp

lemma getLast?_cons_of_nonempty {β : Type} (a : β) (l : List β) (h : l ≠ []) :
    (a :: l).getLast? = l.getLast? := by
  cases l with
  | nil => exact absurd rfl h
  | cons b t => rfl

lemma dedupKeepLast_filter :
    ∀ (l : List α) (k : κ),
      (dedupKeepLast key l).filter (fun r => decide (key r = k)) =
        ((l.filter (fun r => decide (key r = k))).getLast?).toList := by
  intro l
  induction l with
  | nil =>
    intro k
    simp [dedupKeepLast]
  | cons r rs ih =>
    intro k
    simp only [dedupKeepLast]
    by_cases hany : rs.any (fun x => decide (key x = key r)) = true
    · rw [if_pos hany, ih]
      by_cases hrk : key r = k
      · have hne : (rs.filter (fun x => decide (key x = k))) ≠ [] := by
          simp only [List.any_eq_true, decide_eq_true_eq] at hany
          obtain ⟨x, hx, hxk⟩ := hany
          intro hemp
          have : x ∈ rs.filter (fun x => decide (key x = k)) := by
            apply List.mem_filter.mpr
            exact ⟨hx, by simp [hxk, hrk]⟩
          rw [hemp] at this
          simp at this
        rw [List.filter_cons_of_pos (by simp [hrk]), getLast?_cons_of_nonempty _ _ hne]
      · rw [List.filter_cons_of_neg (by simp [hrk])]
    · rw [if_neg hany]
      by_cases hrk : key r = k
      · have hemp : rs.filter (fun x => decide (key x = k)) = [] := by
          rw [List.filter_eq_nil_iff]
          intro x hx
          simp only [decide_eq_true_eq]
          intro hxk
          apply hany
          simp only [List.any_eq_true, decide_eq_true_eq]
          exact ⟨x, hx, by rw [hxk, hrk]⟩
        have hemp2 : (dedupKeepLast key rs).filter (fun x => decide (key x = k)) = [] := by
          rw [ih, hemp]
          rfl
        rw [List.filter_cons_of_pos (by simp [hrk]),
            List.filter_cons_of_pos (by simp [hrk]), hemp, hemp2]
        rfl
      · rw [List.filter_cons_of_neg (by simp [hrk]),
            List.filter_cons_of_neg (by simp [hrk])]
        exact ih k

lemma dedupKeepLast_subset :
    ∀ (l : List α) (x : α), x ∈ dedupKeepLast key l → x ∈ l := by
  intro l
  induction l with
  | nil =>
    intro x hx
    simp [dedupKeepLast] at hx
  | cons r rs ih =>
    intro x hx
    simp only [dedupKeepLast] at hx
    by_cases hany : rs.any (fun y => decide (key y = key r)) = true
    · rw [if_pos hany] at hx
      exact List.mem_cons_of_mem _ (ih x hx)
    · rw [if_neg hany] at hx
      rcases List.mem_cons.mp hx with h1 | h1
      · rw [h1]
        exact List.mem_cons_self _ _
      · exact List.mem_cons_of_mem _ (ih x h1)

lemma dedupKeepFirstAux_subset :
    ∀ (l : List α) (seen : List κ) (x : α), x ∈ dedupKeepFirstAux key seen l → x ∈ l := by
  intro l
  induction l with
  | nil =>
    intro seen x hx
    simp [dedupKeepFirstAux] at hx
  | cons r rs ih =>
    intro seen x hx
    simp only [dedupKeepFirstAux] at hx
    by_cases hk : key r ∈ seen
    · rw [if_pos hk] at hx
      exact List.mem_cons_of_mem _ (ih seen x hx)
    · rw [if_neg hk] at hx
      rcases List.mem_cons.mp hx with h1 | h1
      · rw [h1]
        exact List.mem_cons_self _ _
      · exact List.mem_cons_of_mem _ (ih _ x h1)

lemma dedupKeepLast_keys_nodup :
    ∀ l : List α, ((dedupKeepLast key l).map key).Nodup := by
  intro l
  induction l with
  | nil =>
    simp [dedupKeepLast]
  | cons r rs ih =>
    simp only [dedupKeepLast]
    by_cases hany : rs.any (fun y => decide (key y = key r)) = true
    · rw [if_pos hany]
      exact ih
    · rw [if_neg hany]
      simp only [List.map_cons, List.nodup_cons]
      refine ⟨fun hmem => ?_, ih⟩
      obtain ⟨x, hx, hxk⟩ := List.mem_map.mp hmem
      apply hany
      simp only [List.any_eq_true, decide_eq_true_eq]
      exact ⟨x, dedupKeepLast_subset key rs x hx, hxk⟩

lemma dedupKeepLast_eq_self :
    ∀ l : List α, (l.map key).Nodup → dedupKeepLast key l = l := by
  intro l
  induction l with
  | nil =>
    intro _
    rfl
  | cons r rs ih =>
    intro h
    simp only [List.map_cons, List.nodup_cons] at h
    simp only [dedupKeepLast]
    have hany : ¬ rs.any (fun y => decide (key y = key r)) = true := by
      simp only [List.any_eq_true, decide_eq_true_eq]
      rintro ⟨x, hx, hxk⟩
      exact h.1 (List.mem_map.mpr ⟨x, hx, hxk⟩)
    rw [if_neg hany, ih h.2]

lemma dedupKeepFirstAux_eq_self :
    ∀ (l : List α) (seen : List κ), (l.map key).Nodup →
      (∀ x ∈ l, key x ∉ seen) → dedupKeepFirstAux key seen l = l := by
  intro l
  induction l with
  | nil =>
    intro seen _ _
    rfl
  | cons r rs ih =>
    intro seen h hseen
    simp only [List.map_cons, List.nodup_cons] at h
    simp only [dedupKeepFirstAux]
    rw [if_neg (hseen r (List.mem_cons_self _ _))]
    rw [ih (key r :: seen) h.2]
    intro x hx
    simp only [List.mem_cons]
    push_neg
    constructor
    · intro hk
      exact h.1 (List.mem_map.mpr ⟨x, hx, hk⟩)
    · exact hseen x (List.mem_cons_of_mem _ hx)

lemma dedupKeepFirst_eq_self (l : List α) (h : (l.map key).Nodup) :
    dedupKeepFirst key l = l :=
  dedupKeepFirstAux_eq_self key l [] h (by simp)

end Dedup

/-! ### Claims C7 and C8: the deduplication pipeline -/

lemma rowAllNa_false_of_essential (r : BomRow) (h : rowMissingEssential r = false) :
    rowAllNa r = false := by
  simp only [rowMissingEssential, Bool.or_eq_false_iff] at h
  simp only [rowAllNa, h.1, Bool.false_and]

lemma clean_mem_essential (rows : List BomRow) (x : BomRow) (hx : x ∈ clean_bom_data rows) :
    rowMissingEssential x = false ∧ rowAllNa x = false := by
  unfold clean_bom_data at hx
  have h1 := dedupKeepFirstAux_subset fullKey _ [] x (dedupKeepLast_subset pairKey _ x hx)
  have h2 := List.mem_filter.mp h1
  have h3 := List.mem_filter.mp h2.1
  constructor
  · rw [← Bool.not_eq_true']
    simp only [h2.2]
  · rw [← Bool.not_eq_true']
    simp only [h3.2]

/-- Claim C8: the four-step cleaning pipeline is idempotent. -/
theorem C8_cleaning_idempotent (rows : List BomRow) :
    clean_bom_data (clean_bom_data rows) = clean_bom_data rows := by
  have pairNodup : ((clean_bom_data rows).map pairKey).Nodup := by
    unfold clean_bom_data
    exact dedupKeepLast_keys_nodup pairKey _
  have fullNodup : ((clean_bom_data rows).map fullKey).Nodup := by
    have hcomp : (clean_bom_data rows).map pairKey =
        ((clean_bom_data rows).map fullKey).map (fun fk => (fk.1, fk.2.1)) := by
      rw [List.map_map]
      rfl
    rw [hcomp] at pairNodup
    exact List.Nodup.of_map _ pairNodup
  have hf1 : (clean_bom_data rows).filter (fun r => !rowAllNa r) = clean_bom_data rows := by
    rw [List.filter_eq_self]
    intro x hx
    simp only [(clean_mem_essential rows x hx).2]
    rfl
  have hf2 : (clean_bom_data rows).filter (fun r => !rowMissingEssential r)
      = clean_bom_data rows := by
    rw [List.filter_eq_self]
    intro x hx
    simp only [(clean_mem_essential rows x hx).1]
    rfl
  conv_lhs => rw [clean_bom_data]
  rw [hf1, hf2, dedupKeepFirst_eq_self fullKey _ fullNodup,
      dedupKeepLast_eq_self pairKey _ pairNodup]

/-- Claim C7, counterexample: three rows with the same (Parent, Component):
quantities 1, 2, 1 in that order.  Rows 2 and 3 have the same parent and
component and different quantities, and row 3 is the later one, yet the
surviving quantity in Relations is 2 (row 2's): row 3 is first removed as an
exact duplicate of row 1, and the keep-last collapse then selects row 2. -/
theorem C7_counterexample :
    clean_bom_data
        [⟨some "2P", some "2C", QCell.qnum 1, none, some "EA"⟩,
         ⟨some "2P", some "2C", QCell.qnum 2, none, some "EA"⟩,
         ⟨some "2P", some "2C", QCell.qnum 1, none, some "EA"⟩] =
      [⟨some "2P", some "2C", QCell.qnum 2, none, some "EA"⟩] ∧
    build_bom_relations
        [⟨some "2P", some "2C", QCell.qnum 1, none, some "EA"⟩,
         ⟨some "2P", some "2C", QCell.qnum 2, none, some "EA"⟩,
         ⟨some "2P", some "2C", QCell.qnum 1, none, some "EA"⟩] =
      [("2P", [("2C", 2)])] ∧
    pairKey (⟨some "2P", some "2C", QCell.qnum 2, none, some "EA"⟩ : BomRow) =
      pairKey (⟨some "2P", some "2C", QCell.qnum 1, none, some "EA"⟩ : BomRow) ∧
    (2 : ℚ) ≠ 1 := by
  refine ⟨by decide, by decide, by decide, by norm_num⟩

/-- Claim C7, amended: the pipeline order and survivor rules are as claimed —
exact duplicates keep the first occurrence, the (Parent, Component) collapse
keeps the last remaining occurrence — and therefore the survivor for a
(Parent, Component) key is the last remaining row after exact-duplicate
removal; in particular, when the later of two rows with equal (Parent,
Component) and different quantities is not an exact duplicate of an earlier
row (e.g. any two-row input), the later row's quantity survives. -/
theorem C7_dedup_survivors_amended :
    (∀ (l : List BomRow) (K : Option String × Option String × QCell × Option String),
      (dedupKeepFirst fullKey l).filter (fun r => decide (fullKey r = K)) =
        (l.filter (fun r => decide (fullKey r = K))).take 1) ∧
    (∀ (l : List BomRow) (k : Option String × Option String),
      (dedupKeepLast pairKey l).filter (fun r => decide (pairKey r = k)) =
        ((l.filter (fun r => decide (pairKey r = k))).getLast?).toList) ∧
    (∀ (rows : List BomRow) (k : Option String × Option String),
      (clean_bom_data rows).filter (fun r => decide (pairKey r = k)) =
        (((dedupKeepFirst fullKey ((rows.filter (fun r => !rowAllNa r)).filter
            (fun r => !rowMissingEssential r))).filter
          (fun r => decide (pairKey r = k))).getLast?).toList) ∧
    (∀ a b : BomRow, rowMissingEssential a = false → rowMissingEssential b = false →
      pairKey a = pairKey b → fullKey a ≠ fullKey b →
      clean_bom_data [a, b] = [b]) := by
  refine ⟨dedupKeepFirst_filter fullKey, dedupKeepLast_filter pairKey, ?_, ?_⟩
  · intro rows k
    unfold clean_bom_data
    exact dedupKeepLast_filter pairKey _ k
  · intro a b hea heb hpk hfk
    have hana : rowAllNa a = false := rowAllNa_false_of_essential a hea
    have hanb : rowAllNa b = false := rowAllNa_false_of_essential b heb
    unfold clean_bom_data
    have hfa : (List.filter (fun r => !rowAllNa r) [a, b]) = [a, b] := by
      rw [List.filter_eq_self]
      intro x hx
      rcases List.mem_cons.mp hx with h | h
      · simp [h, hana]
      · simp at h
        simp [h, hanb]
    have hfb : (List.filter (fun r => !rowMissingEssential r) [a, b]) = [a, b] := by
      rw [List.filter_eq_self]
      intro x hx
      rcases List.mem_cons.mp hx with h | h
      · simp [h, hea]
      · simp at h
        simp [h, heb]
    rw [hfa, hfb]
    have hdf : dedupKeepFirst fullKey [a, b] = [a, b] := by
      unfold dedupKeepFirst dedupKeepFirstAux
      rw [if_neg (by simp)]
      simp only [dedupKeepFirstAux]
      have hnm : ¬ fullKey b ∈ [fullKey a] := by
        simp only [List.mem_cons, List.not_mem_nil, or_false]
        exact fun hh => hfk hh.symm
      rw [if_neg hnm]
    rw [hdf]
    have hc : ([b].any fun x => decide (pairKey x = pairKey a)) = true := by
      simp only [List.any_cons, List.any_nil, Bool.or_false, decide_eq_true_eq]
      exact hpk.symm
    simp only [dedupKeepLast, hc, if_true, List.any_nil, Bool.false_eq_true, if_false]

/-- Witness for the amended C7: a two-row input with equal (Parent,
Component) and quantities 1 then 2 keeps only the later row. -/
theorem C7_witness :
    clean_bom_data
        [⟨some "2P", some "2C", QCell.qnum 1, none, some "EA"⟩,
         ⟨some "2P", some "2C", QCell.qnum 2, none, some "EA"⟩] =
      [⟨some "2P", some "2C", QCell.qnum 2, none, some "EA"⟩] :=
  C7_dedup_survivors_amended.2.2.2
    ⟨some "2P", some "2C", QCell.qnum 1, none, some "EA"⟩
    ⟨some "2P", some "2C", QCell.qnum 2, none, some "EA"⟩
    (by decide) (by decide) (by decide) (by decide)

/-! ### Plan rows and the two aggregators (claims C4 and C5)

A plan row is the `str()` of its first cell (the top-level code) together
with its per-month cells.  Month columns are the list `months`. -/

structure PlanRow where
  code : String
  cells : List (String × QCell)

/-- The cell of a row under a month column (`prow[month]`). -/
def cellsAt (cells : List (String × QCell)) (m : String) : QCell :=
  ((cells.find? (fun e => e.1 = m)).map (·.2)).getD QCell.qnan

def cellAt (r : PlanRow) (m : String) : QCell :=
  cellsAt r.cells m

/-- Period-value parsing of `calculate_all_levels_requirements`
(lines 1763-1769): `pd.isna(v) or v == 0` skips the raw cell (a numeric zero
is compared before parsing; a text cell is never `== 0`), then
`float(str(v).replace(",", "."))`. -/
def parseCellAll : QCell → Option ℚ
  | QCell.qnan => none
  | QCell.qnum q => if q = 0 then none else some q
  | QCell.qstr s => pyFloat (commaToDot s)

/-- The accumulated (material, month) ↦ quantity totals,
`defaultdict(lambda: defaultdict(float))` in insertion order. -/
abbrev RMap := List ((String × String) × ℚ)

/-- `results[mat][mo] += q`. -/
def addR (acc : RMap) (mat mo : String) (q : ℚ) : RMap :=
  match acc with
  | [] => [((mat, mo), q)]
  | ((m, mm), v) :: rest =>
    if m = mat ∧ mm = mo then ((m, mm), v + q) :: rest
    else ((m, mm), v) :: addR rest mat mo q

/-- Reading a total, `0.0` when absent. -/
def getR (acc : RMap) (mat mo : String) : ℚ :=
  match acc with
  | [] => 0
  | ((m, mm), v) :: rest => if m = mat ∧ mm = mo then v else getR rest mat mo

/-- The inner loop of `calculate_requirements`:
`for raw_material, per_unit in bom_map.items(): results[rm][month] += planned * per_unit`. -/
def bomFoldReq (bom_map : List (String × ℚ)) (mo : String) (planned : ℚ) (acc : RMap) : RMap :=
  bom_map.foldl (fun acc mq => addR acc mq.1 mo (planned * mq.2)) acc

/-- One month of one plan row in `calculate_requirements` (lines 313-327):
skip `NaN`/unparsable and explicit-zero values, else accumulate
`planned * per_unit` for every exploded leaf. -/
def processMonthReq (bom_map : List (String × ℚ)) (r : PlanRow) (acc : RMap) (mo : String) :
    RMap :=
  match parseQtyCell (cellAt r mo) with
  | none => acc
  | some planned => if planned = 0 then acc else bomFoldReq bom_map mo planned acc

/-- One plan row in `calculate_requirements` (lines 306-327): skip blank,
`nan` or `none` codes, explode once, then process every month column. -/
def processRowReq (rel : Rel) (fuel : Nat) (months : List String) (acc : RMap) (r : PlanRow) :
    Option RMap :=
  let fg := pyStrip r.code
  if fg = "" ∨ pyLower fg ∈ ["nan", "none", ""] then some acc
  else
    match explode_unit rel fuel fg with
    | none => none
    | some bom_map => some (months.foldl (processMonthReq bom_map r) acc)

/-- The accumulation core of `calculate_requirements`. -/
def calculate_requirements (rel : Rel) (fuel : Nat) (plan : List PlanRow)
    (months : List String) : Option RMap :=
  plan.foldlM (processRowReq rel fuel months) []

/-- The edge loop of `_calculate_component_requirements`, parametrised by the
recursive call at the smaller fuel. -/
def calcCompGo (recur : String → ℚ → RMap → Option RMap) (mo : String) (parentQty : ℚ) :
    List (String × ℚ) → RMap → Option RMap
  | [], acc => some acc
  | cq :: rest, acc =>
    match recur cq.1 (parentQty * cq.2) (addR acc cq.1 mo (parentQty * cq.2)) with
    | none => none
    | some acc2 => calcCompGo recur mo parentQty rest acc2

/-- `_calculate_component_requirements` (lines 1815-1824): push
`parent_qty * comp_qty` onto every component, recursively, with fuel. -/
def calcCompReq (rel : Rel) : Nat → String → ℚ → String → RMap → Option RMap
  | 0, _, _, _, _ => none
  | fuel + 1, parent, parentQty, mo, acc =>
    match lookupRel rel parent with
    | none => some acc
    | some comps =>
      calcCompGo (fun c rq a => calcCompReq rel fuel c rq mo a) mo parentQty comps acc

/-- One month of one plan row in `calculate_all_levels_requirements`
(lines 1762-1775): seed the top-level code itself, then push through the
relation graph. -/
def processMonthAll (rel : Rel) (fuel : Nat) (r : PlanRow) (parent : String) (acc : RMap)
    (mo : String) : Option RMap :=
  match parseCellAll (cellAt r mo) with
  | none => some acc
  | some planned => calcCompReq rel fuel parent planned mo (addR acc parent mo planned)

/-- One plan row in `calculate_all_levels_requirements` (lines 1756-1775):
only a blank code is skipped. -/
def processRowAll (rel : Rel) (fuel : Nat) (months : List String) (acc : RMap) (r : PlanRow) :
    Option RMap :=
  let parent := pyStrip r.code
  if parent = "" then some acc
  else months.foldlM (processMonthAll rel fuel r parent) acc

/-- The accumulation core of `calculate_all_levels_requirements`. -/
def calculate_all_levels_requirements (rel : Rel) (fuel : Nat) (plan : List PlanRow)
    (months : List String) : Option RMap :=
  plan.foldlM (processRowAll rel fuel months) []

/-! ### Claim C4: blank / `nan` plan rows -/

lemma foldlM_skip {β γ : Type} (f : γ → β → Option γ) (x : β)
    (hx : ∀ acc, f acc x = some acc) :
    ∀ (l1 l2 : List β) (init : γ),
      List.foldlM f init (l1 ++ x :: l2) = List.foldlM f init (l1 ++ l2) := by
  intro l1
  induction l1 with
  | nil =>
    intro l2 init
    show List.foldlM f init (x :: l2) = List.foldlM f init l2
    rw [List.foldlM_cons, hx]
    rfl
  | cons a l1 ih =>
    intro l2 init
    show List.foldlM f init (a :: (l1 ++ x :: l2)) = List.foldlM f init (a :: (l1 ++ l2))
    rw [List.foldlM_cons, List.foldlM_cons]
    rcases ha : f init a with _ | acc2
    · rfl
    · show List.foldlM f acc2 (l1 ++ x :: l2) = List.foldlM f acc2 (l1 ++ l2)
      exact ih l2 acc2

/-- Claim C4, counterexample: a plan row whose top-level code is the string
`"nan"` (the `str()` of a missing cell) is skipped by
`calculate_requirements` but NOT by `calculate_all_levels_requirements`,
which accumulates its planned quantity under the material `"nan"`. -/
theorem C4_counterexample :
    calculate_all_levels_requirements [] 1 [⟨"nan", [("M", QCell.qnum 5)]⟩] ["M"] =
      some [(("nan", "M"), 5)] ∧
    calculate_all_levels_requirements [] 1 [] ["M"] = some [] ∧
    calculate_requirements [] 1 [⟨"nan", [("M", QCell.qnum 5)]⟩] ["M"] = some [] ∧
    (5 : ℚ) ≠ 0 := by
  refine ⟨by decide, by decide, by decide, by norm_num⟩

/-- Claim C4, amended: a plan row whose stripped, lower-cased code is
`"nan"`, `"none"` or blank contributes nothing to `calculate_requirements`;
`calculate_all_levels_requirements` skips only rows with a blank stripped
code (a `"nan"` row is processed there like any other code). -/
theorem C4_skipped_rows_amended :
    (∀ (rel : Rel) (fuel : Nat) (months : List String) (pre post : List PlanRow) (r : PlanRow),
      pyLower (pyStrip r.code) ∈ ["nan", "none", ""] →
      calculate_requirements rel fuel (pre ++ r :: post) months =
        calculate_requirements rel fuel (pre ++ post) months) ∧
    (∀ (rel : Rel) (fuel : Nat) (months : List String) (pre post : List PlanRow) (r : PlanRow),
      pyStrip r.code = "" →
      calculate_all_levels_requirements rel fuel (pre ++ r :: post) months =
        calculate_all_levels_requirements rel fuel (pre ++ post) months) := by
  constructor
  · intro rel fuel months pre post r h
    unfold calculate_requirements
    apply foldlM_skip
    intro acc
    simp only [processRowReq]
    rw [if_pos (Or.inr h)]
  · intro rel fuel months pre post r h
    unfold calculate_all_levels_requirements
    apply foldlM_skip
    intro acc
    simp only [processRowAll]
    rw [if_pos h]

/-- Witness for the amended C4: a `" nan "` row is dropped from
`calculate_requirements` and a whitespace-only row from
`calculate_all_levels_requirements`. -/
theorem C4_witness :
    calculate_requirements exRel 3
        ([] ++ (⟨" nan ", [("M", QCell.qnum 5)]⟩ : PlanRow) :: [⟨"A", [("M", QCell.qnum 10)]⟩])
        ["M"] =
      calculate_requirements exRel 3 ([] ++ [⟨"A", [("M", QCell.qnum 10)]⟩]) ["M"] ∧
    calculate_all_levels_requirements exRel 3
        ([] ++ (⟨"  ", [("M", QCell.qnum 5)]⟩ : PlanRow) :: [⟨"A", [("M", QCell.qnum 10)]⟩])
        ["M"] =
      calculate_all_levels_requirements exRel 3 ([] ++ [⟨"A", [("M", QCell.qnum 10)]⟩]) ["M"] :=
  ⟨C4_skipped_rows_amended.1 exRel 3 ["M"] [] [⟨"A", [("M", QCell.qnum 10)]⟩] _ (by decide),
   C4_skipped_rows_amended.2 exRel 3 ["M"] [] [⟨"A", [("M", QCell.qnum 10)]⟩] _ (by decide)⟩

/-! ### Claim C5: linearity of the Requirements Aggregator

Doubling the planned value of one row at one period: a numeric cell is
doubled; a text cell that parses is replaced by its doubled numeric value
(doubling "the planned value"); a missing or unparsable cell stays as it is
(there is no value to double). -/

def doubleQ (c : QCell) : QCell :=
  match c with
  | QCell.qnan => QCell.qnan
  | QCell.qnum q => QCell.qnum (2 * q)
  | QCell.qstr s =>
    match pyFloat (commaToDot s) with
    | some q => QCell.qnum (2 * q)
    | none => QCell.qstr s

/-- The plan row with its value at period `p` doubled. -/
def rowDoubleAt (r : PlanRow) (p : String) : PlanRow :=
  ⟨r.code, r.cells.map (fun e => if e.1 = p then (e.1, doubleQ e.2) else e)⟩

lemma parseQtyCell_doubleQ (c : QCell) :
    parseQtyCell (doubleQ c) = (parseQtyCell c).map (fun q => 2 * q) := by
  cases c with
  | qnan => rfl
  | qnum q => rfl
  | qstr s =>
    simp only [doubleQ, parseQtyCell]
    rcases h : pyFloat (commaToDot s) with _ | q
    · simp [parseQtyCell, h]
    · simp [parseQtyCell]

lemma cellsAt_cons (e : String × QCell) (rest : List (String × QCell)) (m : String) :
    cellsAt (e :: rest) m = if e.1 = m then e.2 else cellsAt rest m := by
  by_cases h : e.1 = m
  · simp [cellsAt, List.find?, h]
  · have hd : (decide (e.1 = m)) = false := by simp [h]
    simp only [cellsAt, List.find?, hd, if_neg h]

lemma cellsAt_map_double (cells : List (String × QCell)) (p mo : String) :
    cellsAt (cells.map (fun e => if e.1 = p then (e.1, doubleQ e.2) else e)) mo =
      if mo = p then doubleQ (cellsAt cells mo) else cellsAt cells mo := by
  induction cells with
  | nil =>
    by_cases h : mo = p
    · simp [cellsAt, h, doubleQ]
    · simp [cellsAt, h]
  | cons e rest ih =>
    simp only [List.map_cons]
    by_cases hep : e.1 = p
    · rw [if_pos hep]
      by_cases hem : e.1 = mo
      · have hmp : mo = p := by rw [← hem, hep]
        rw [cellsAt_cons, cellsAt_cons, if_pos hem, if_pos hem, if_pos hmp]
      · rw [cellsAt_cons, cellsAt_cons]
        simp only at hem
        rw [if_neg hem, if_neg hem, ih]
    · rw [if_neg hep]
      by_cases hem : e.1 = mo
      · have hmp : ¬ mo = p := by
          rw [← hem]
          exact fun hh => hep hh
        rw [cellsAt_cons, if_pos hem, if_neg hmp, cellsAt_cons, if_pos hem]
      · rw [cellsAt_cons, if_neg hem, ih]
        by_cases hmp : mo = p
        · rw [if_pos hmp, if_pos hmp, cellsAt_cons, if_neg hem]
        · rw [if_neg hmp, if_neg hmp, cellsAt_cons, if_neg hem]

lemma cellAt_doubleAt (r : PlanRow) (p mo : String) :
    cellAt (rowDoubleAt r p) mo =
      if mo = p then doubleQ (cellAt r mo) else cellAt r mo :=
  cellsAt_map_double r.cells p mo

lemma getR_addR (acc : RMap) (mat mo : String) (q : ℚ) :
    ∀ mat' mo', getR (addR acc mat mo q) mat' mo' =
      getR acc mat' mo' + (if mat = mat' ∧ mo = mo' then q else 0) := by
  induction acc with
  | nil =>
    intro mat' mo'
    simp only [addR, getR]
    by_cases h : mat = mat' ∧ mo = mo'
    · rw [if_pos h]
      ring
    · rw [if_neg h]
      ring
  | cons hd tl ih =>
    intro mat' mo'
    obtain ⟨⟨m, mm⟩, v⟩ := hd
    simp only [addR]
    by_cases hk : m = mat ∧ mm = mo
    · rw [if_pos hk]
      simp only [getR]
      by_cases hk' : m = mat' ∧ mm = mo'
      · rw [if_pos hk', if_pos hk']
        have : mat = mat' ∧ mo = mo' := ⟨hk.1 ▸ hk'.1, hk.2 ▸ hk'.2⟩
        rw [if_pos this]
      · rw [if_neg hk', if_neg hk']
        have : ¬ (mat = mat' ∧ mo = mo') := by
          intro hc
          exact hk' ⟨hk.1.trans hc.1, hk.2.trans hc.2⟩
        rw [if_neg this]
        ring
    · rw [if_neg hk]
      simp only [getR]
      by_cases hk' : m = mat' ∧ mm = mo'
      · rw [if_pos hk', if_pos hk']
        have : ¬ (mat = mat' ∧ mo = mo') := by
          intro hc
          exact hk ⟨hc.1 ▸ hk'.1, hc.2 ▸ hk'.2⟩
        rw [if_neg this]
        ring
      · rw [if_neg hk', if_neg hk']
        exact ih mat' mo'

lemma getR_bomFoldReq (mo : String) (planned : ℚ) :
    ∀ (bom : List (String × ℚ)) (acc : RMap) (mat' mo' : String),
      getR (bomFoldReq bom mo planned acc) mat' mo' =
        getR acc mat' mo' + (if mo = mo' then planned * sumGet bom mat' else 0) := by
  intro bom
  induction bom with
  | nil =>
    intro acc mat' mo'
    simp only [bomFoldReq, List.foldl, sumGet, List.filter, List.map_nil, List.sum_nil]
    by_cases h : mo = mo'
    · rw [if_pos h]
      ring
    · rw [if_neg h]
      ring
  | cons mq rest ih =>
    intro acc mat' mo'
    obtain ⟨a, b⟩ := mq
    have hstep : bomFoldReq ((a, b) :: rest) mo planned acc =
        bomFoldReq rest mo planned (addR acc a mo (planned * b)) := rfl
    rw [hstep, ih, getR_addR, sumGet_cons]
    by_cases hmo : mo = mo'
    · by_cases ha : a = mat'
      · rw [if_pos ⟨ha, hmo⟩, if_pos hmo, if_pos hmo, if_pos ha]
        ring
      · rw [if_neg (fun hc => ha hc.1), if_pos hmo, if_pos hmo, if_neg ha]
        ring
    · rw [if_neg (fun hc => hmo hc.2), if_neg hmo, if_neg hmo]
      ring

/-- Contribution of one month of one row to one (material, month) total. -/
def monthContrib (bom_map : List (String × ℚ)) (r : PlanRow) (mo mat' : String) : ℚ :=
  match parseQtyCell (cellAt r mo) with
  | none => 0
  | some planned => if planned = 0 then 0 else planned * sumGet bom_map mat'

lemma getR_processMonthReq (bom : List (String × ℚ)) (r : PlanRow) (acc : RMap)
    (mo mat' mo' : String) :
    getR (processMonthReq bom r acc mo) mat' mo' =
      getR acc mat' mo' + (if mo = mo' then monthContrib bom r mo mat' else 0) := by
  rcases hq : parseQtyCell (cellAt r mo) with _ | planned
  · have h1 : processMonthReq bom r acc mo = acc := by
      simp only [processMonthReq, hq]
    have h2 : monthContrib bom r mo mat' = 0 := by
      simp only [monthContrib, hq]
    rw [h1, h2]
    by_cases h : mo = mo'
    · rw [if_pos h]
      ring
    · rw [if_neg h]
      ring
  · by_cases hz : planned = 0
    · have h1 : processMonthReq bom r acc mo = acc := by
        simp only [processMonthReq, hq, if_pos hz]
      have h2 : monthContrib bom r mo mat' = 0 := by
        simp only [monthContrib, hq, if_pos hz]
      rw [h1, h2]
      by_cases h : mo = mo'
      · rw [if_pos h]
        ring
      · rw [if_neg h]
        ring
    · have h1 : processMonthReq bom r acc mo = bomFoldReq bom mo planned acc := by
        simp only [processMonthReq, hq, if_neg hz]
      have h2 : monthContrib bom r mo mat' = planned * sumGet bom mat' := by
        simp only [monthContrib, hq, if_neg hz]
      rw [h1, h2, getR_bomFoldReq]

lemma getR_monthsFold (bom : List (String × ℚ)) (r : PlanRow) :
    ∀ (months : List String) (acc : RMap) (mat' mo' : String),
      getR (months.foldl (processMonthReq bom r) acc) mat' mo' =
        getR acc mat' mo' + (months.count mo' : ℚ) * monthContrib bom r mo' mat' := by
  intro months
  induction months with
  | nil =>
    intro acc mat' mo'
    simp [List.foldl]
  | cons mo rest ih =>
    intro acc mat' mo'
    have hstep : (mo :: rest).foldl (processMonthReq bom r) acc =
        rest.foldl (processMonthReq bom r) (processMonthReq bom r acc mo) := rfl
    rw [hstep, ih, getR_processMonthReq, List.count_cons]
    by_cases h : mo = mo'
    · have hc : (if (mo == mo') = true then (1 : ℕ) else 0) = 1 := by simp [h]
      rw [if_pos h, hc, h]
      push_cast
      ring
    · have hc : (if (mo == mo') = true then (1 : ℕ) else 0) = 0 := by simp [h]
      rw [if_neg h, hc]
      push_cast
      ring

/-- Total contribution of one plan row to one (material, month) cell of the
Requirements Aggregator. -/
def rowContrib (rel : Rel) (fuel : Nat) (months : List String) (r : PlanRow)
    (mat' mo' : String) : ℚ :=
  let fg := pyStrip r.code
  if fg = "" ∨ pyLower fg ∈ ["nan", "none", ""] then 0
  else
    match explode_unit rel fuel fg with
    | none => 0
    | some bom_map => (months.count mo' : ℚ) * monthContrib bom_map r mo' mat'

lemma getR_processRowReq (rel : Rel) (fuel : Nat) (months : List String) (acc : RMap)
    (r : PlanRow) (res : RMap) (h : processRowReq rel fuel months acc r = some res)
    (mat' mo' : String) :
    getR res mat' mo' = getR acc mat' mo' + rowContrib rel fuel months r mat' mo' := by
  simp only [processRowReq] at h
  simp only [rowContrib]
  by_cases hskip : pyStrip r.code = "" ∨ pyLower (pyStrip r.code) ∈ ["nan", "none", ""]
  · rw [if_pos hskip] at h
    rw [if_pos hskip]
    rw [← Option.some.inj h]
    ring
  · rw [if_neg hskip] at h
    rw [if_neg hskip]
    rcases hb : explode_unit rel fuel (pyStrip r.code) with _ | bm
    · rw [hb] at h
      exact absurd h (by simp)
    · simp only [hb] at h
      simp only
      rw [← Option.some.inj h, getR_monthsFold]

lemma getR_calcFold (rel : Rel) (fuel : Nat) (months : List String) :
    ∀ (plan : List PlanRow) (acc res : RMap),
      List.foldlM (processRowReq rel fuel months) acc plan = some res →
      ∀ mat' mo', getR res mat' mo' = getR acc mat' mo' +
        ((plan.map (fun r => rowContrib rel fuel months r mat' mo')).sum) := by
  intro plan
  induction plan with
  | nil =>
    intro acc res h mat' mo'
    simp only [List.foldlM_nil] at h
    rw [← Option.some.inj h]
    simp
  | cons r rest ih =>
    intro acc res h mat' mo'
    rw [List.foldlM_cons] at h
    rcases hr : processRowReq rel fuel months acc r with _ | acc1
    · rw [hr] at h
      exact absurd h (by simp)
    · rw [hr] at h
      have h2 : List.foldlM (processRowReq rel fuel months) acc1 rest = some res := h
      rw [ih acc1 res h2 mat' mo',
          getR_processRowReq rel fuel months acc r acc1 hr mat' mo']
      simp only [List.map_cons, List.sum_cons]
      ring

lemma processRowReq_isSome_indep (rel : Rel) (fuel : Nat) (months : List String)
    (r : PlanRow) (acc acc' : RMap) :
    (processRowReq rel fuel months acc r).isSome =
      (processRowReq rel fuel months acc' r).isSome := by
  simp only [processRowReq]
  by_cases h : pyStrip r.code = "" ∨ pyLower (pyStrip r.code) ∈ ["nan", "none", ""]
  · rw [if_pos h, if_pos h]
    rfl
  · rw [if_neg h, if_neg h]
    rcases hb : explode_unit rel fuel (pyStrip r.code) with _ | bm
    · simp only [hb]
    · simp only [hb]
      rfl

lemma processRowReq_doubleAt_isSome (rel : Rel) (fuel : Nat) (months : List String)
    (r : PlanRow) (p : String) (acc acc' : RMap) :
    (processRowReq rel fuel months acc r).isSome = true →
    (processRowReq rel fuel months acc' (rowDoubleAt r p)).isSome = true := by
  intro h
  have hcode : (rowDoubleAt r p).code = r.code := rfl
  simp only [processRowReq, hcode] at *
  by_cases hs : pyStrip r.code = "" ∨ pyLower (pyStrip r.code) ∈ ["nan", "none", ""]
  · rw [if_pos hs]
    rfl
  · rw [if_neg hs] at h
    rw [if_neg hs]
    rcases hb : explode_unit rel fuel (pyStrip r.code) with _ | bm
    · rw [hb] at h
      exact absurd h (by simp)
    · rfl

lemma foldlM_rows_isSome (rel : Rel) (fuel : Nat) (months : List String) :
    ∀ (plan : List PlanRow) (acc acc' : RMap),
      (List.foldlM (processRowReq rel fuel months) acc plan).isSome = true →
      (List.foldlM (processRowReq rel fuel months) acc' plan).isSome = true := by
  intro plan
  induction plan with
  | nil =>
    intro acc acc' _
    rfl
  | cons r rest ih =>
    intro acc acc' h
    rw [List.foldlM_cons] at h
    rw [List.foldlM_cons]
    rcases hr : processRowReq rel fuel months acc r with _ | a1
    · rw [hr] at h
      exact absurd h (by simp)
    · rw [hr] at h
      have h2 : (List.foldlM (processRowReq rel fuel months) a1 rest).isSome = true := h
      have hsome : (processRowReq rel fuel months acc' r).isSome = true := by
        rw [processRowReq_isSome_indep rel fuel months r acc' acc, hr]
        rfl
      obtain ⟨a1', ha1'⟩ := Option.isSome_iff_exists.mp hsome
      rw [ha1']
      exact ih a1 a1' h2

lemma calc_doubleAt_isSome (rel : Rel) (fuel : Nat) (months : List String)
    (r : PlanRow) (p : String) (post : List PlanRow) :
    ∀ (pre : List PlanRow) (acc acc' : RMap),
      (List.foldlM (processRowReq rel fuel months) acc (pre ++ r :: post)).isSome = true →
      (List.foldlM (processRowReq rel fuel months) acc'
        (pre ++ rowDoubleAt r p :: post)).isSome = true := by
  intro pre
  induction pre with
  | nil =>
    intro acc acc' h
    simp only [List.nil_append] at *
    rw [List.foldlM_cons] at h
    rw [List.foldlM_cons]
    rcases hr : processRowReq rel fuel months acc r with _ | a1
    · rw [hr] at h
      exact absurd h (by simp)
    · rw [hr] at h
      have h2 : (List.foldlM (processRowReq rel fuel months) a1 post).isSome = true := h
      have hsome : (processRowReq rel fuel months acc' (rowDoubleAt r p)).isSome = true :=
        processRowReq_doubleAt_isSome rel fuel months r p acc acc' (by rw [hr]; rfl)
      obtain ⟨a1', ha1'⟩ := Option.isSome_iff_exists.mp hsome
      rw [ha1']
      exact foldlM_rows_isSome rel fuel months post a1 a1' h2
  | cons a pre ih =>
    intro acc acc' h
    simp only [List.cons_append] at *
    rw [List.foldlM_cons] at h
    rw [List.foldlM_cons]
    rcases hr : processRowReq rel fuel months acc a with _ | a1
    · rw [hr] at h
      exact absurd h (by simp)
    · rw [hr] at h
      have h2 : (List.foldlM (processRowReq rel fuel months) a1
          (pre ++ r :: post)).isSome = true := h
      have hsome : (processRowReq rel fuel months acc' a).isSome = true := by
        rw [processRowReq_isSome_indep rel fuel months a acc' acc, hr]
        rfl
      obtain ⟨a1', ha1'⟩ := Option.isSome_iff_exists.mp hsome
      rw [ha1']
      exact ih a1 a1' h2

lemma monthContrib_doubleAt (bom : List (String × ℚ)) (r : PlanRow) (p mo mat' : String) :
    monthContrib bom (rowDoubleAt r p) mo mat' =
      if mo = p then 2 * monthContrib bom r mo mat' else monthContrib bom r mo mat' := by
  by_cases hmp : mo = p
  · rw [if_pos hmp]
    have hc : cellAt (rowDoubleAt r p) mo = doubleQ (cellAt r mo) := by
      rw [cellAt_doubleAt, if_pos hmp]
    rcases hq : parseQtyCell (cellAt r mo) with _ | planned
    · have h1 : monthContrib bom (rowDoubleAt r p) mo mat' = 0 := by
        simp only [monthContrib, hc, parseQtyCell_doubleQ, hq, Option.map_none']
      have h2 : monthContrib bom r mo mat' = 0 := by
        simp only [monthContrib, hq]
      rw [h1, h2]
      ring
    · by_cases hz : planned = 0
      · have h1 : monthContrib bom (rowDoubleAt r p) mo mat' = 0 := by
          simp only [monthContrib, hc, parseQtyCell_doubleQ, hq, Option.map_some']
          rw [if_pos (by rw [hz]; ring)]
        have h2 : monthContrib bom r mo mat' = 0 := by
          simp only [monthContrib, hq, if_pos hz]
        rw [h1, h2]
        ring
      · have h1 : monthContrib bom (rowDoubleAt r p) mo mat' =
            (2 * planned) * sumGet bom mat' := by
          simp only [monthContrib, hc, parseQtyCell_doubleQ, hq, Option.map_some']
          rw [if_neg (by exact mul_ne_zero two_ne_zero hz)]
        have h2 : monthContrib bom r mo mat' = planned * sumGet bom mat' := by
          simp only [monthContrib, hq, if_neg hz]
        rw [h1, h2]
        ring
  · rw [if_neg hmp]
    have hc : cellAt (rowDoubleAt r p) mo = cellAt r mo := by
      rw [cellAt_doubleAt, if_neg hmp]
    simp only [monthContrib, hc]

lemma rowContrib_doubleAt (rel : Rel) (fuel : Nat) (months : List String)
    (r : PlanRow) (p : String) (mat' mo' : String) :
    rowContrib rel fuel months (rowDoubleAt r p) mat' mo' =
      rowContrib rel fuel months r mat' mo' +
        (if mo' = p then rowContrib rel fuel months r mat' p else 0) := by
  have hcode : (rowDoubleAt r p).code = r.code := rfl
  by_cases hs : pyStrip r.code = "" ∨ pyLower (pyStrip r.code) ∈ ["nan", "none", ""]
  · have h1 : ∀ x y, rowContrib rel fuel months r x y = 0 := by
      intro x y
      simp only [rowContrib]
      rw [if_pos hs]
    have h2 : rowContrib rel fuel months (rowDoubleAt r p) mat' mo' = 0 := by
      simp only [rowContrib, hcode]
      rw [if_pos hs]
    rw [h1, h1, h2]
    by_cases hmp : mo' = p
    · rw [if_pos hmp]
      ring
    · rw [if_neg hmp]
      ring
  · rcases hb : explode_unit rel fuel (pyStrip r.code) with _ | bm
    · have h1 : ∀ x y, rowContrib rel fuel months r x y = 0 := by
        intro x y
        simp only [rowContrib]
        rw [if_neg hs]
        simp only [hb]
      have h2 : rowContrib rel fuel months (rowDoubleAt r p) mat' mo' = 0 := by
        simp only [rowContrib, hcode]
        rw [if_neg hs]
        simp only [hb]
      rw [h1, h1, h2]
      by_cases hmp : mo' = p
      · rw [if_pos hmp]
        ring
      · rw [if_neg hmp]
        ring
    · have h1 : ∀ x y, rowContrib rel fuel months r x y =
          (months.count y : ℚ) * monthContrib bm r y x := by
        intro x y
        simp only [rowContrib]
        rw [if_neg hs]
        simp only [hb]
      have h2 : rowContrib rel fuel months (rowDoubleAt r p) mat' mo' =
          (months.count mo' : ℚ) * monthContrib bm (rowDoubleAt r p) mo' mat' := by
        simp only [rowContrib, hcode]
        rw [if_neg hs]
        simp only [hb]
      rw [h1, h1, h2, monthContrib_doubleAt]
      by_cases hmp : mo' = p
      · rw [if_pos hmp, if_pos hmp, hmp]
        ring
      · rw [if_neg hmp, if_neg hmp]
        ring

/-- Claim C5: the Requirements Aggregator is linear in the planned quantity.
Doubling one plan row's value at one period yields a run that still
succeeds, adds exactly one extra copy of that row's period-`p` contribution
to every (material, p) total — i.e. the row's contribution is doubled — and
leaves every other (material, period) cell unchanged. -/
theorem C5_requirements_linearity (rel : Rel) (fuel : Nat) (months : List String)
    (pre post : List PlanRow) (r : PlanRow) (p : String) (res : RMap)
    (h : calculate_requirements rel fuel (pre ++ r :: post) months = some res) :
    ∃ res', calculate_requirements rel fuel (pre ++ rowDoubleAt r p :: post) months = some res' ∧
      ∀ mat mo, getR res' mat mo = getR res mat mo +
        (if mo = p then rowContrib rel fuel months r mat p else 0) := by
  have hs : (calculate_requirements rel fuel (pre ++ rowDoubleAt r p :: post) months).isSome
      = true := by
    apply calc_doubleAt_isSome rel fuel months r p post pre [] []
    show (calculate_requirements rel fuel (pre ++ r :: post) months).isSome = true
    rw [h]
    rfl
  obtain ⟨res', hres'⟩ := Option.isSome_iff_exists.mp hs
  refine ⟨res', hres', fun mat mo => ?_⟩
  have h1 := getR_calcFold rel fuel months (pre ++ r :: post) [] res h mat mo
  have h2 := getR_calcFold rel fuel months (pre ++ rowDoubleAt r p :: post) [] res' hres' mat mo
  have hget0 : getR [] mat mo = 0 := rfl
  rw [hget0] at h1 h2
  rw [h1, h2]
  simp only [List.map_append, List.map_cons, List.sum_append, List.sum_cons]
  rw [rowContrib_doubleAt]
  ring

/-- Witness for C5 on the example BOM and a one-row plan for 10 units of A
in period M: the doubled plan run exists and each total shifts by the
period-M contribution. -/
theorem C5_witness :
    ∃ res', calculate_requirements exRel 3
        ([] ++ rowDoubleAt ⟨"A", [("M", QCell.qnum 10)]⟩ "M" :: []) ["M"] = some res' ∧
      ∀ mat mo, getR res' mat mo =
        getR [(("C", "M"), 60), (("D", "M"), 10)] mat mo +
          (if mo = "M" then
            rowContrib exRel 3 ["M"] ⟨"A", [("M", QCell.qnum 10)]⟩ mat "M" else 0) :=
  C5_requirements_linearity exRel 3 ["M"] [] [] ⟨"A", [("M", QCell.qnum 10)]⟩ "M"
    [(("C", "M"), 60), (("D", "M"), 10)] (by decide)

/-! ### Claim C9: the level search `_get_material_level` (lines 1826-1856)

The upward search walks, for the current material, over all
(parent, component) pairs of `Relations` in iteration order, recursing into
each parent whose component matches; the visited set is one shared,
mutated set, modelled by threading it through and out of every call. -/

/-- The iteration order of
`for parent, components in self.relations.items(): for comp, _ in components`. -/
def edgeList (rel : Rel) : List (String × String) :=
  rel.flatMap (fun pc => pc.2.map (fun cq => (pc.1, cq.1)))

/-- The double loop of `find_level` over the relation edges, parametrised by
the recursive call (which threads the shared visited set). -/
def find_level_edges (recur : List String → String → Option (Int × List String)) :
    List String → String → List (String × String) → Option (Int × List String)
  | visited, _, [] => some (-1, visited)
  | visited, current, pc :: rest =>
    if pc.2 = current then
      match recur visited pc.1 with
      | none => none
      | some plv =>
        if 0 ≤ plv.1 then some (plv.1 + 1, plv.2)
        else find_level_edges recur plv.2 current rest
    else find_level_edges recur visited current rest

/-- `find_level` with fuel: prune on a visited material (returning -1),
record the material as visited, answer 1 on a plan top-level code, else
search the parents of the current material. -/
def find_level (rel : Rel) (plan : List String) :
    Nat → List String → String → Option (Int × List String)
  | 0, _, _ => none
  | fuel + 1, visited, current =>
    if current ∈ visited then some (-1, visited)
    else
      let visited' := current :: visited
      if current ∈ plan then some (1, visited')
      else find_level_edges (find_level rel plan fuel) visited' current (edgeList rel)

/-- Sufficient fuel for the search (proved below): one unit per relation
edge plus two. -/
def levelFuel (rel : Rel) : Nat := (edgeList rel).length + 2

/-- `_get_material_level`: plan top-level codes are level 0; otherwise run
the search and replace a negative answer by the sentinel 999. -/
def get_material_level (rel : Rel) (plan : List String) (material_code : String) : Int :=
  if material_code ∈ plan then 0
  else
    match find_level rel plan (levelFuel rel) [] material_code with
    | some plv => if 0 ≤ plv.1 then plv.1 else 999
    | none => 999

/-- A parent chain from a material up to a plan top-level code: the list of
parents climbed, the last of which is in the plan. -/
inductive ChainL (rel : Rel) (plan : List String) : String → List String → Prop where
  | base (c : String) (h : c ∈ plan) : ChainL rel plan c []
  | step (c p : String) (l : List String) (hedge : (p, c) ∈ edgeList rel)
      (hc : ChainL rel plan p l) : ChainL rel plan c (p :: l)

/-! Basic structural lemmas. -/

lemma find_level_visited (rel : Rel) (plan : List String) (fuel : Nat) (V : List String)
    (p : String) (hfuel : 1 ≤ fuel) (hp : p ∈ V) :
    find_level rel plan fuel V p = some (-1, V) := by
  cases fuel with
  | zero => exact absurd hfuel (by omega)
  | succ n =>
    simp only [find_level]
    rw [if_pos hp]

lemma find_level_edges_mono
    (recur : List String → String → Option (Int × List String))
    (hrec : ∀ V x r, recur V x = some r → V ⊆ r.2) :
    ∀ (es : List (String × String)) (V : List String) (x : String) (r : Int × List String),
      find_level_edges recur V x es = some r → V ⊆ r.2 := by
  intro es
  induction es with
  | nil =>
    intro V x r h
    simp only [find_level_edges, Option.some.injEq] at h
    have h3 : r.2 = V := by rw [← h]
    rw [h3]
    exact fun a ha => ha
  | cons pc rest ih =>
    intro V x r h
    simp only [find_level_edges] at h
    by_cases hc : pc.2 = x
    · rw [if_pos hc] at h
      rcases hr : recur V pc.1 with _ | plv
      · rw [hr] at h
        exact absurd h (by simp)
      · rw [hr] at h
        simp only at h
        by_cases hge : 0 ≤ plv.1
        · rw [if_pos hge] at h
          have h2 := Option.some.inj h
          have h3 : r.2 = plv.2 := by rw [← h2]
          rw [h3]
          exact hrec V pc.1 plv hr
        · rw [if_neg hge] at h
          exact fun a ha => ih plv.2 x r h (hrec V pc.1 plv hr ha)
    · rw [if_neg hc] at h
      exact ih V x r h

lemma find_level_mono (rel : Rel) (plan : List String) :
    ∀ (fuel : Nat) (V : List String) (x : String) (r : Int × List String),
      find_level rel plan fuel V x = some r → V ⊆ r.2 := by
  intro fuel
  induction fuel with
  | zero =>
    intro V x r h
    exact absurd h (by simp [find_level])
  | succ n ih =>
    intro V x r h
    simp only [find_level] at h
    by_cases hv : x ∈ V
    · rw [if_pos hv] at h
      have h2 := Option.some.inj h
      have h3 : r.2 = V := by rw [← h2]
      rw [h3]
      exact fun a ha => ha
    · rw [if_neg hv] at h
      by_cases hp : x ∈ plan
      · rw [if_pos hp] at h
        have h2 := Option.some.inj h
        have h3 : r.2 = x :: V := by rw [← h2]
        rw [h3]
        exact List.subset_cons_self _ _
      · rw [if_neg hp] at h
        have h2 := find_level_edges_mono _ ih (edgeList rel) (x :: V) x r h
        exact fun a ha => h2 (List.mem_cons_of_mem _ ha)

lemma find_level_mem (rel : Rel) (plan : List String)
    (fuel : Nat) (V : List String) (x : String) (r : Int × List String)
    (h : find_level rel plan fuel V x = some r) : x ∈ r.2 := by
  cases fuel with
  | zero => exact absurd h (by simp [find_level])
  | succ n =>
    simp only [find_level] at h
    by_cases hv : x ∈ V
    · rw [if_pos hv] at h
      have h2 := Option.some.inj h
      have h3 : r.2 = V := by rw [← h2]
      rw [h3]
      exact hv
    · rw [if_neg hv] at h
      by_cases hp : x ∈ plan
      · rw [if_pos hp] at h
        have h2 := Option.some.inj h
        have h3 : r.2 = x :: V := by rw [← h2]
        rw [h3]
        exact List.mem_cons_self _ _
      · rw [if_neg hp] at h
        exact find_level_edges_mono _ (find_level_mono rel plan n) (edgeList rel)
          (x :: V) x r h (List.mem_cons_self _ _)

lemma find_level_edges_vals
    (recur : List String → String → Option (Int × List String)) :
    ∀ (es : List (String × String)) (V : List String) (x : String) (r : Int × List String),
      find_level_edges recur V x es = some r → r.1 = -1 ∨ 1 ≤ r.1 := by
  intro es
  induction es with
  | nil =>
    intro V x r h
    simp only [find_level_edges, Option.some.injEq] at h
    left
    rw [← h]
  | cons pc rest ih =>
    intro V x r h
    simp only [find_level_edges] at h
    by_cases hc : pc.2 = x
    · rw [if_pos hc] at h
      rcases hr : recur V pc.1 with _ | plv
      · rw [hr] at h
        exact absurd h (by simp)
      · rw [hr] at h
        simp only at h
        by_cases hge : 0 ≤ plv.1
        · rw [if_pos hge] at h
          have h2 := Option.some.inj h
          right
          have h3 : r.1 = plv.1 + 1 := by rw [← h2]
          omega
        · rw [if_neg hge] at h
          exact ih plv.2 x r h
    · rw [if_neg hc] at h
      exact ih V x r h

lemma find_level_vals (rel : Rel) (plan : List String) :
    ∀ (fuel : Nat) (V : List String) (x : String) (r : Int × List String),
      find_level rel plan fuel V x = some r → r.1 = -1 ∨ 1 ≤ r.1 := by
  intro fuel
  cases fuel with
  | zero =>
    intro V x r h
    exact absurd h (by simp [find_level])
  | succ n =>
    intro V x r h
    simp only [find_level] at h
    by_cases hv : x ∈ V
    · rw [if_pos hv] at h
      left
      have h2 := Option.some.inj h
      rw [← h2]
    · rw [if_neg hv] at h
      by_cases hp : x ∈ plan
      · rw [if_pos hp] at h
        right
        have h2 := Option.some.inj h
        have h3 : r.1 = 1 := by rw [← h2]
        omega
      · rw [if_neg hp] at h
        exact find_level_edges_vals _ (edgeList rel) (x :: V) x r h

lemma find_level_edges_fuelmono
    (recur1 recur2 : List String → String → Option (Int × List String))
    (h12 : ∀ V x r, recur1 V x = some r → recur2 V x = some r) :
    ∀ (es : List (String × String)) (V : List String) (x : String) (r : Int × List String),
      find_level_edges recur1 V x es = some r → find_level_edges recur2 V x es = some r := by
  intro es
  induction es with
  | nil =>
    intro V x r h
    exact h
  | cons pc rest ih =>
    intro V x r h
    simp only [find_level_edges] at h
    simp only [find_level_edges]
    by_cases hc : pc.2 = x
    · rw [if_pos hc] at h
      rw [if_pos hc]
      rcases hr : recur1 V pc.1 with _ | plv
      · rw [hr] at h
        exact absurd h (by simp)
      · rw [hr] at h
        rw [h12 V pc.1 plv hr]
        simp only at h
        simp only
        by_cases hge : 0 ≤ plv.1
        · rw [if_pos hge] at h
          rw [if_pos hge]
          exact h
        · rw [if_neg hge] at h
          rw [if_neg hge]
          exact ih plv.2 x r h
    · rw [if_neg hc] at h
      rw [if_neg hc]
      exact ih V x r h

/-! Termination: the number of still-unvisited parent keys strictly drops at
every recursive descent, so `levelFuel` is always enough fuel. -/

/-- The count of parent occurrences (over the edge list) not yet visited. -/
def mNot (rel : Rel) (V : List String) : Nat :=
  (((edgeList rel).map Prod.fst).filter (fun y => decide (¬ y ∈ V))).length

lemma mNot_mono (rel : Rel) {V W : List String} (h : V ⊆ W) : mNot rel W ≤ mNot rel V := by
  unfold mNot
  refine List.Sublist.length_le (List.monotone_filter_right _ ?_)
  intro a ha
  simp only [decide_eq_true_eq] at ha ⊢
  exact fun hv => ha (h hv)

lemma mNot_lt (rel : Rel) {V : List String} {p : String}
    (hp : p ∈ (edgeList rel).map Prod.fst) (hpv : ¬ p ∈ V) :
    mNot rel (p :: V) < mNot rel V := by
  unfold mNot
  obtain ⟨s, t, he⟩ := List.append_of_mem hp
  rw [he, List.filter_append, List.filter_append, List.length_append, List.length_append]
  have hq : (decide (¬ p ∈ p :: V)) = false := by simp
  have hp' : (decide (¬ p ∈ V)) = true := by simp [hpv]
  rw [List.filter_cons, List.filter_cons, hq, hp']
  simp only [Bool.false_eq_true, if_false, if_true, List.length_cons]
  have h1 : ((s.filter (fun y => decide (¬ y ∈ p :: V))).length ≤
      (s.filter (fun y => decide (¬ y ∈ V))).length) := by
    refine List.Sublist.length_le (List.monotone_filter_right _ ?_)
    intro a ha
    simp only [decide_eq_true_eq, List.mem_cons, not_or] at ha ⊢
    exact ha.2
  have h2 : ((t.filter (fun y => decide (¬ y ∈ p :: V))).length ≤
      (t.filter (fun y => decide (¬ y ∈ V))).length) := by
    refine List.Sublist.length_le (List.monotone_filter_right _ ?_)
    intro a ha
    simp only [decide_eq_true_eq, List.mem_cons, not_or] at ha ⊢
    exact ha.2
  omega

lemma mNot_le_edges (rel : Rel) (V : List String) : mNot rel V ≤ (edgeList rel).length := by
  unfold mNot
  calc _ ≤ ((edgeList rel).map Prod.fst).length := List.length_filter_le _ _
  _ = (edgeList rel).length := List.length_map _ _

lemma find_level_edges_isSome (rel : Rel) (plan : List String) (fuel : Nat)
    (hrec : ∀ V x, mNot rel (x :: V) + 2 ≤ fuel →
      (find_level rel plan fuel V x).isSome = true) :
    ∀ (es : List (String × String)) (V : List String) (x : String),
      (∀ pc ∈ es, pc.1 ∈ (edgeList rel).map Prod.fst) →
      mNot rel V + 1 ≤ fuel →
      (find_level_edges (find_level rel plan fuel) V x es).isSome = true := by
  intro es
  induction es with
  | nil =>
    intro V x _ _
    rfl
  | cons pc rest ih =>
    intro V x hes hV
    simp only [find_level_edges]
    by_cases hc : pc.2 = x
    · rw [if_pos hc]
      by_cases hp : pc.1 ∈ V
      · rw [find_level_visited rel plan fuel V pc.1 (by omega) hp]
        show (if (0:Int) ≤ (-1:Int) then (some ((-1:Int) + 1, V) : Option (Int × List String))
          else find_level_edges (find_level rel plan fuel) V x rest).isSome = true
        rw [if_neg (by decide : ¬ ((0:Int) ≤ (-1:Int)))]
        exact ih V x (fun pc' h' => hes pc' (List.mem_cons_of_mem _ h')) hV
      · have hcall := hrec V pc.1 (by
          have h1 : mNot rel (pc.1 :: V) < mNot rel V :=
            mNot_lt rel (hes pc (List.mem_cons_self _ _)) hp
          omega)
        rcases hr : find_level rel plan fuel V pc.1 with _ | plv
        · rw [hr] at hcall
          exact absurd hcall (by simp)
        · show (if 0 ≤ plv.1 then (some (plv.1 + 1, plv.2) : Option (Int × List String))
            else find_level_edges (find_level rel plan fuel) plv.2 x rest).isSome = true
          by_cases hge : 0 ≤ plv.1
          · rw [if_pos hge]
            rfl
          · rw [if_neg hge]
            have hmono := find_level_mono rel plan fuel V pc.1 plv hr
            exact ih plv.2 x (fun pc' h' => hes pc' (List.mem_cons_of_mem _ h'))
              (by have := mNot_mono rel hmono; omega)
    · rw [if_neg hc]
      exact ih V x (fun pc' h' => hes pc' (List.mem_cons_of_mem _ h')) hV

lemma find_level_isSome (rel : Rel) (plan : List String) :
    ∀ (fuel : Nat) (V : List String) (x : String),
      mNot rel (x :: V) + 2 ≤ fuel → (find_level rel plan fuel V x).isSome = true := by
  intro fuel
  induction fuel with
  | zero =>
    intro V x h
    exact absurd h (by omega)
  | succ n ih =>
    intro V x h
    simp only [find_level]
    by_cases hv : x ∈ V
    · rw [if_pos hv]
      rfl
    · rw [if_neg hv]
      by_cases hp : x ∈ plan
      · rw [if_pos hp]
        rfl
      · rw [if_neg hp]
        apply find_level_edges_isSome rel plan n ih (edgeList rel) (x :: V) x
        · intro pc hpc
          exact List.mem_map.mpr ⟨pc, hpc, rfl⟩
        · have h1 := mNot_mono rel (List.subset_cons_self x V)
          omega

lemma find_level_levelFuel_isSome (rel : Rel) (plan : List String) (x : String) :
    (find_level rel plan (levelFuel rel) [] x).isSome = true := by
  apply find_level_isSome rel plan (levelFuel rel) [] x
  have h1 := mNot_le_edges rel [x]
  unfold levelFuel
  omega

lemma find_level_fuel_succ (rel : Rel) (plan : List String) :
    ∀ (fuel : Nat) (V : List String) (x : String) (r : Int × List String),
      find_level rel plan fuel V x = some r → find_level rel plan (fuel + 1) V x = some r := by
  intro fuel
  induction fuel with
  | zero =>
    intro V x r h
    exact absurd h (by simp [find_level])
  | succ n ih =>
    intro V x r h
    simp only [find_level] at h
    simp only [find_level]
    by_cases hv : x ∈ V
    · rw [if_pos hv] at h
      rw [if_pos hv]
      exact h
    · rw [if_neg hv] at h
      rw [if_neg hv]
      by_cases hp : x ∈ plan
      · rw [if_pos hp] at h
        rw [if_pos hp]
        exact h
      · rw [if_neg hp] at h
        rw [if_neg hp]
        exact find_level_edges_fuelmono _ _ ih (edgeList rel) (x :: V) x r h

/-! Soundness: a non-negative answer of the search is one more than the
length of an actual parent chain up to a plan top-level code. -/

lemma find_level_edges_sound (rel : Rel) (plan : List String)
    (recur : List String → String → Option (Int × List String))
    (hrec : ∀ V p r, recur V p = some r → 0 ≤ r.1 →
      ∃ l, ChainL rel plan p l ∧ (l.length : Int) + 1 = r.1) :
    ∀ (es : List (String × String)) (V : List String) (x : String) (r : Int × List String),
      (∀ pc ∈ es, pc ∈ edgeList rel) →
      find_level_edges recur V x es = some r → 0 ≤ r.1 →
      ∃ l, ChainL rel plan x l ∧ (l.length : Int) + 1 = r.1 := by
  intro es
  induction es with
  | nil =>
    intro V x r _ h hge
    simp only [find_level_edges, Option.some.injEq] at h
    have h1 : r.1 = -1 := by rw [← h]
    omega
  | cons pc rest ih =>
    intro V x r hes h hge
    simp only [find_level_edges] at h
    by_cases hc : pc.2 = x
    · rw [if_pos hc] at h
      rcases hr : recur V pc.1 with _ | plv
      · rw [hr] at h
        exact absurd h (by simp)
      · rw [hr] at h
        simp only at h
        by_cases hge' : 0 ≤ plv.1
        · rw [if_pos hge'] at h
          have h2 := Option.some.inj h
          obtain ⟨l, hch, hlen⟩ := hrec V pc.1 plv hr hge'
          refine ⟨pc.1 :: l, ?_, ?_⟩
          · refine ChainL.step x pc.1 l ?_ hch
            have hpc := hes pc (List.mem_cons_self _ _)
            have hxp : (pc.1, x) = pc := by rw [← hc]
            rw [hxp]
            exact hpc
          · have h3 : r.1 = plv.1 + 1 := by rw [← h2]
            simp only [List.length_cons]
            push_cast
            omega
        · rw [if_neg hge'] at h
          exact ih plv.2 x r (fun pc' h' => hes pc' (List.mem_cons_of_mem _ h')) h hge
    · rw [if_neg hc] at h
      exact ih V x r (fun pc' h' => hes pc' (List.mem_cons_of_mem _ h')) h hge

lemma find_level_sound (rel : Rel) (plan : List String) :
    ∀ (fuel : Nat) (V : List String) (x : String) (r : Int × List String),
      find_level rel plan fuel V x = some r → 0 ≤ r.1 →
      ∃ l, ChainL rel plan x l ∧ (l.length : Int) + 1 = r.1 := by
  intro fuel
  induction fuel with
  | zero =>
    intro V x r h
    exact absurd h (by simp [find_level])
  | succ n ih =>
    intro V x r h hge
    simp only [find_level] at h
    by_cases hv : x ∈ V
    · rw [if_pos hv] at h
      have h2 := Option.some.inj h
      have h3 : r.1 = -1 := by rw [← h2]
      omega
    · rw [if_neg hv] at h
      by_cases hp : x ∈ plan
      · rw [if_pos hp] at h
        have h2 := Option.some.inj h
        refine ⟨[], ChainL.base x hp, ?_⟩
        have h3 : r.1 = 1 := by rw [← h2]
        simp [h3]
      · rw [if_neg hp] at h
        exact find_level_edges_sound rel plan _ ih (edgeList rel) (x :: V) x r
          (fun pc h' => h') h hge

/-! Completeness: when the search answers -1 from an empty visited set, no
parent chain from the material reaches a plan top-level code.  The invariant:
relative to a set SK of already fully-searched materials, every chain from a
visited material meets SK. -/

def chainMeets (SK : List String) (c : String) (l : List String) : Prop :=
  c ∈ SK ∨ ∃ n ∈ l, n ∈ SK

def AllMeet (rel : Rel) (plan : List String) (SK : List String) (c : String) : Prop :=
  ∀ l, ChainL rel plan c l → chainMeets SK c l

lemma chainMeets_mono {SK SK' : List String} (h : SK ⊆ SK') {c : String} {l : List String} :
    chainMeets SK c l → chainMeets SK' c l := by
  rintro (h1 | ⟨n, hn, h2⟩)
  · exact Or.inl (h h1)
  · exact Or.inr ⟨n, hn, h h2⟩

lemma AllMeet_mono {rel : Rel} {plan : List String} {SK SK' : List String}
    (h : SK ⊆ SK') {c : String} : AllMeet rel plan SK c → AllMeet rel plan SK' c :=
  fun ha l hl => chainMeets_mono h (ha l hl)

lemma chain_suffix (rel : Rel) (plan : List String) :
    ∀ (c : String) (l : List String), ChainL rel plan c l →
      ∀ n ∈ l, ∃ l2, ChainL rel plan n l2 ∧ l2.length < l.length ∧ ∀ y ∈ l2, y ∈ l := by
  intro c l hch
  induction hch with
  | base c h =>
    intro n hn
    exact absurd hn (List.not_mem_nil n)
  | step c p l hedge hc ih =>
    intro n hn
    rcases List.mem_cons.mp hn with h1 | h1
    · subst h1
      exact ⟨l, hc, by simp only [List.length_cons]; omega,
        fun y hy => List.mem_cons_of_mem _ hy⟩
    · obtain ⟨l2, hch2, hlen, hsub⟩ := ih n h1
      exact ⟨l2, hch2, by simp only [List.length_cons]; omega,
        fun y hy => List.mem_cons_of_mem _ (hsub y hy)⟩

lemma find_level_edges_meets (rel : Rel) (plan : List String) (SK : List String)
    (recur : List String → String → Option (Int × List String))
    (hvals : ∀ V p r, recur V p = some r → r.1 = -1 ∨ 1 ≤ r.1)
    (hrec : ∀ V p r, SK ⊆ V → (∀ v ∈ V, AllMeet rel plan SK v) →
      recur V p = some r → r.1 = -1 →
      V ⊆ r.2 ∧ (∀ v ∈ r.2, AllMeet rel plan SK v) ∧ p ∈ r.2) :
    ∀ (es : List (String × String)) (V : List String) (x : String) (r : Int × List String),
      SK ⊆ V → (∀ v ∈ V, AllMeet rel plan SK v) →
      find_level_edges recur V x es = some r → r.1 = -1 →
      V ⊆ r.2 ∧ (∀ v ∈ r.2, AllMeet rel plan SK v) ∧
        (∀ pc ∈ es, pc.2 = x → pc.1 ∈ r.2) := by
  intro es
  induction es with
  | nil =>
    intro V x r hsk hall h hneg
    simp only [find_level_edges, Option.some.injEq] at h
    have h2 : r.2 = V := by rw [← h]
    rw [h2]
    exact ⟨fun a ha => ha, hall, fun pc hpc => absurd hpc (List.not_mem_nil pc)⟩
  | cons pc rest ih =>
    intro V x r hsk hall h hneg
    simp only [find_level_edges] at h
    by_cases hc : pc.2 = x
    · rw [if_pos hc] at h
      rcases hr : recur V pc.1 with _ | plv
      · rw [hr] at h
        exact absurd h (by simp)
      · rw [hr] at h
        simp only at h
        by_cases hge : 0 ≤ plv.1
        · rw [if_pos hge] at h
          have h2 := Option.some.inj h
          have h3 : r.1 = plv.1 + 1 := by rw [← h2]
          omega
        · rw [if_neg hge] at h
          have hplv : plv.1 = -1 := by
            rcases hvals V pc.1 plv hr with hv1 | hv1
            · exact hv1
            · omega
          obtain ⟨hVsub, hallV, hpV⟩ := hrec V pc.1 plv hsk hall hr hplv
          obtain ⟨hsub2, hall2, hpar2⟩ := ih plv.2 x r
            (fun a ha => hVsub (hsk ha)) hallV h hneg
          refine ⟨fun a ha => hsub2 (hVsub ha), hall2, ?_⟩
          intro pc' hpc' hcx
          rcases List.mem_cons.mp hpc' with h1 | h1
          · subst h1
            exact hsub2 hpV
          · exact hpar2 pc' h1 hcx
    · rw [if_neg hc] at h
      obtain ⟨hs, ha, hpr⟩ := ih V x r hsk hall h hneg
      refine ⟨hs, ha, ?_⟩
      intro pc' hpc' hcx
      rcases List.mem_cons.mp hpc' with h1 | h1
      · subst h1
        exact absurd hcx hc
      · exact hpr pc' h1 hcx

lemma find_level_meets (rel : Rel) (plan : List String) :
    ∀ (fuel : Nat) (SK V : List String) (x : String) (r : Int × List String),
      SK ⊆ V → (∀ v ∈ V, AllMeet rel plan SK v) →
      find_level rel plan fuel V x = some r → r.1 = -1 →
      V ⊆ r.2 ∧ (∀ v ∈ r.2, AllMeet rel plan SK v) ∧ x ∈ r.2 := by
  intro fuel
  induction fuel with
  | zero =>
    intro SK V x r _ _ h _
    exact absurd h (by simp [find_level])
  | succ n ih =>
    intro SK V x r hsk hall h hneg
    simp only [find_level] at h
    by_cases hv : x ∈ V
    · rw [if_pos hv] at h
      have h2 := Option.some.inj h
      have h3 : r.2 = V := by rw [← h2]
      rw [h3]
      exact ⟨fun a ha => ha, hall, hv⟩
    · rw [if_neg hv] at h
      by_cases hp : x ∈ plan
      · rw [if_pos hp] at h
        have h2 := Option.some.inj h
        have h3 : r.1 = 1 := by rw [← h2]
        omega
      · rw [if_neg hp] at h
        have hsk' : x :: SK ⊆ x :: V := by
          intro a ha
          rcases List.mem_cons.mp ha with h1 | h1
          · rw [h1]
            exact List.mem_cons_self _ _
          · exact List.mem_cons_of_mem _ (hsk h1)
        have hall' : ∀ v ∈ x :: V, AllMeet rel plan (x :: SK) v := by
          intro v hvv
          rcases List.mem_cons.mp hvv with h1 | h1
          · rw [h1]
            intro l hl
            exact Or.inl (List.mem_cons_self _ _)
          · exact AllMeet_mono (List.subset_cons_self _ _) (hall v h1)
        obtain ⟨hsub, hallr, hpar⟩ := find_level_edges_meets rel plan (x :: SK)
          (find_level rel plan n) (find_level_vals rel plan n)
          (fun V' p r' hs ha hr hn => ih (x :: SK) V' p r' hs ha hr hn)
          (edgeList rel) (x :: V) x r hsk' hall' h hneg
        have hxSK : x ∉ SK := fun hx => hv (hsk hx)
        have claimA : ∀ (N : Nat) (l : List String), l.length ≤ N →
            ChainL rel plan x l → chainMeets SK x l := by
          intro N
          induction N with
          | zero =>
            intro l hlen hch
            cases hch with
            | base _ hpl => exact absurd hpl hp
            | step _ p l2 hedge hcc =>
              simp only [List.length_cons] at hlen
              exact absurd hlen (by omega)
          | succ N ihN =>
            intro l hlen hch
            cases hch with
            | base _ hpl => exact absurd hpl hp
            | step _ p l2 hedge hcc =>
              have hpr : p ∈ r.2 := hpar (p, x) hedge rfl
              have hmeets := hallr p hpr l2 hcc
              simp only [List.length_cons] at hlen
              rcases hmeets with h1 | ⟨m, hm, h2⟩
              · rcases List.mem_cons.mp h1 with hxx | hxx
                · subst hxx
                  rcases ihN l2 (by omega) hcc with h3 | ⟨m', hm', h3⟩
                  · exact absurd h3 hxSK
                  · exact Or.inr ⟨m', List.mem_cons_of_mem _ hm', h3⟩
                · exact Or.inr ⟨p, List.mem_cons_self _ _, hxx⟩
              · rcases List.mem_cons.mp h2 with hxx | hxx
                · subst hxx
                  obtain ⟨l3, hch3, hlen3, hsub3⟩ := chain_suffix rel plan p l2 hcc m hm
                  rcases ihN l3 (by omega) hch3 with h3 | ⟨m', hm', h3⟩
                  · exact absurd h3 hxSK
                  · exact Or.inr ⟨m', List.mem_cons_of_mem _ (hsub3 m' hm'), h3⟩
                · exact Or.inr ⟨m, List.mem_cons_of_mem _ hm, hxx⟩
        have hstrength : ∀ v, AllMeet rel plan (x :: SK) v → AllMeet rel plan SK v := by
          intro v hv' l hl
          rcases hv' l hl with h1 | ⟨m, hm, h2⟩
          · rcases List.mem_cons.mp h1 with hxx | hxx
            · subst hxx
              exact claimA l.length l le_rfl hl
            · exact Or.inl hxx
          · rcases List.mem_cons.mp h2 with hxx | hxx
            · subst hxx
              obtain ⟨l3, hch3, hlen3, hsub3⟩ := chain_suffix rel plan v l hl m hm
              rcases claimA l3.length l3 le_rfl hch3 with h3 | ⟨m', hm', h3⟩
              · exact absurd h3 hxSK
              · exact Or.inr ⟨m', hsub3 m' hm', h3⟩
            · exact Or.inr ⟨m, hm, hxx⟩
        refine ⟨fun a ha => hsub (List.mem_cons_of_mem _ ha), ?_,
          hsub (List.mem_cons_self _ _)⟩
        intro v hvr
        exact hstrength v (hallr v hvr)

lemma find_level_no_chain (rel : Rel) (plan : List String) (fuel : Nat) (x : String)
    (r : Int × List String) (h : find_level rel plan fuel [] x = some r) (hneg : r.1 = -1) :
    ∀ l, ¬ ChainL rel plan x l := by
  obtain ⟨_, hall, hx⟩ := find_level_meets rel plan fuel [] [] x r
    (fun a ha => ha) (fun v hv => absurd hv (List.not_mem_nil v)) h hneg
  intro l hl
  rcases hall x hx l hl with h1 | ⟨m, _, h2⟩
  · exact absurd h1 (List.not_mem_nil x)
  · exact absurd h2 (List.not_mem_nil m)

/-- C9 counterexample: the claimed dichotomy "hops + 1 when a chain exists,
999 otherwise" fails for a material that is itself a plan top-level code:
`_get_material_level` returns 0 there (line 1829-1830), yet a (trivial)
parent chain exists, so every chain value is at least 1, and 999 ≠ 0. -/
theorem C9_counterexample :
    get_material_level [] ["5A"] "5A" = 0 ∧
    ChainL [] ["5A"] "5A" [] ∧
    (∀ l : List String, ChainL [] ["5A"] "5A" l → ((l.length : Int) + 1) ≠ 0) ∧
    ((999 : Int) ≠ 0) := by
  refine ⟨by decide, ChainL.base "5A" (by decide), ?_, by decide⟩
  intro l _
  have h1 : (0:Int) ≤ (l.length : Int) := Int.natCast_nonneg _
  omega

/-- C9 (amended): `_get_material_level` terminates on every Relations map,
cyclic ones included, within the fuel bound `levelFuel` (number of relation
edges + 2), the search result being fuel-stable from there on; a plan
top-level code gets level 0; and for every other material the result is the
length of some parent chain up to a plan top-level code plus one when such a
chain exists, and the sentinel 999 when no parent chain reaches the plan. -/
theorem C9_level_search_amended (rel : Rel) (plan : List String) (code : String) :
    (find_level rel plan (levelFuel rel) [] code).isSome = true ∧
    (∀ (fuel : Nat) (V : List String) (x : String) (r : Int × List String),
      find_level rel plan fuel V x = some r →
      find_level rel plan (fuel + 1) V x = some r) ∧
    (code ∈ plan → get_material_level rel plan code = 0) ∧
    (code ∉ plan →
      ((∃ l, ChainL rel plan code l ∧
          get_material_level rel plan code = (l.length : Int) + 1) ∨
        ((∀ l, ¬ ChainL rel plan code l) ∧
          get_material_level rel plan code = 999))) := by
  refine ⟨find_level_levelFuel_isSome rel plan code,
    find_level_fuel_succ rel plan, ?_, ?_⟩
  · intro hp
    unfold get_material_level
    rw [if_pos hp]
  · intro hp
    unfold get_material_level
    rw [if_neg hp]
    have hsome := find_level_levelFuel_isSome rel plan code
    rcases hr : find_level rel plan (levelFuel rel) [] code with _ | plv
    · rw [hr] at hsome
      exact absurd hsome (by simp)
    · rcases find_level_vals rel plan _ _ _ _ hr with hv1 | hv1
      · right
        refine ⟨find_level_no_chain rel plan _ code plv hr hv1, ?_⟩
        show (if 0 ≤ plv.1 then plv.1 else 999) = 999
        rw [if_neg (by omega : ¬ (0:Int) ≤ plv.1)]
      · left
        obtain ⟨l, hch, hlen⟩ := find_level_sound rel plan _ _ _ _ hr (by omega)
        refine ⟨l, hch, ?_⟩
        show (if 0 ≤ plv.1 then plv.1 else 999) = (l.length : Int) + 1
        rw [if_pos (by omega : (0:Int) ≤ plv.1)]
        omega

theorem C9_witness :
    get_material_level [] ["5A"] "5A" = 0 ∧
    ((∃ l, ChainL [("5A", [("2B", (1:ℚ))])] ["5A"] "2B" l ∧
        get_material_level [("5A", [("2B", 1)])] ["5A"] "2B" = (l.length : Int) + 1) ∨
      ((∀ l, ¬ ChainL [("5A", [("2B", (1:ℚ))])] ["5A"] "2B" l) ∧
        get_material_level [("5A", [("2B", 1)])] ["5A"] "2B" = 999)) :=
  ⟨(C9_level_search_amended [] ["5A"] "5A").2.2.1 (by decide),
    (C9_level_search_amended [("5A", [("2B", 1)])] ["5A"] "2B").2.2.2 (by decide)⟩

end MRP
